import Mathlib

/-!
# Verification of `LTspice_opt.py`

A shallow embedding, in Lean 4, of the core algorithms of the LTspice
optimizer (`src/LTspice_opt.py`), together with theorems settling the
behavioural claims about it.  Python floats are modelled as exact
rationals (`ℚ`), Python lists as Lean lists, and the fallible paths of
the Python code (exceptions, `sys.exit`) as explicit result inductives.
-/

set_option maxRecDepth 16000

namespace LTspiceOpt

/-! ## Python string primitives

Python `str` values are modelled as Lean `String`s; the handful of
string operations the program uses (`in` substring test, `str.replace`,
`str.lower`, `str.isnumeric`, `float(...)`) are re-implemented
structurally over `List Char` so that they compute.
-/

/-- Bool test: `needle` occurs as a contiguous sublist of `hay`
(Python's `needle in hay` on strings). -/
def subOf (needle : List Char) : List Char → Bool
  | [] => needle.isEmpty
  | c :: t => needle.isPrefixOf (c :: t) || subOf needle t

/-- Python `needle in hay` for strings. -/
def pyIn (needle hay : String) : Bool := subOf needle.data hay.data

/-! ## Simulation Synchronizer (`runSim`, lines 158-179, and the
identical synchronization block of `optLTspice`, lines 105-122)

The Python code is, in order:
```
md5 = hash(outputfile)                 # pre-run hash
status = subprocess.call(RunLTstring)  # launch simulator
while md5_post == md5:                 # poll loop: sleep + rehash
    time.sleep(0.2)
    md5_post = hash(outputfile)
if status:                             # status check AFTER the loop
    print('ERROR, LTspice sim failed to run. Check setup'); sys.exit()
```
The environment (the artifact's hash as a function of how many poll
sleeps have elapsed, and the subprocess exit status) is abstracted into
`SimEnv`; the unbounded `while` is modelled with explicit fuel, with
fuel exhaustion standing for an infinite hang. -/

/-- External environment of one simulator run: `hashAt t` is the
content hash of the result artifact observed at the `t`-th rehash
(`hashAt 0` is the pre-run hash), `status` the exit status of the
blocking subprocess call. -/
structure SimEnv where
  hashAt : ℕ → ℕ
  status : ℤ

/-- The poll loop: starting after `t` completed rehashes, keep
sleeping and rehashing until the hash differs from the pre-run hash
`hashAt 0`; returns the number of rehashes done at loop exit, or
`none` if `fuel` runs out (the loop never exits). -/
def findHashChange (env : SimEnv) : ℕ → ℕ → Option ℕ
  | 0, _ => none
  | f + 1, t =>
    if env.hashAt (t + 1) = env.hashAt 0 then findHashChange env f (t + 1)
    else some (t + 1)

/-- Outcome of one `runSim`-style synchronization block. -/
inductive SimOutcome where
  | hung
  | fatalExit (pollsDone : ℕ)
  | done (pollsDone : ℕ)
  deriving DecidableEq

/-- The synchronization block of `runSim` / `optLTspice`: hash, launch,
poll until the hash changes, and only then act on a nonzero `status`
with a fatal `sys.exit`. -/
def runSimModel (env : SimEnv) (fuel : ℕ) : SimOutcome :=
  match findHashChange env fuel 0 with
  | none => SimOutcome.hung
  | some t => if env.status ≠ 0 then SimOutcome.fatalExit t else SimOutcome.done t

/-- Environment whose artifact hash first changes at the second rehash,
with a nonzero subprocess status. -/
def envChangeAt2 : SimEnv :=
  { hashAt := fun t => if t < 2 then 0 else 1, status := 1 }

/-- Environment whose artifact hash never changes, with a nonzero
subprocess status. -/
def envStuck : SimEnv :=
  { hashAt := fun _ => 0, status := 1 }

/-! ## Startup binding resolution (`main`, lines 419-436)

```
for kk in range(numOptd):
    for k in range(numlines_netlist):
        if simControlOPtInstNames[kk] in thisLine[0]:
            OptLine[kkk - 1] = k; ...; kkk += 1
numMatchingInstFound = kkk - 1
if numOptd != numMatchingInstFound: print('ERROR;...'); sys.exit()
```
Every (requested name, netlist line) pair whose designator token
(token 0) contains the name as a substring counts as a match; matches
are appended in loop order.  `OptLine` has `numOptd` slots, so if the
total match count ever exceeds `numOptd` the assignment
`OptLine[kkk-1] = k` raises `IndexError` (modelled as `crash`);
otherwise the run aborts iff the total differs from `numOptd`. -/

/-- Indices of the netlist lines whose designator token contains
`name` as a substring, in scan order.  (Netlist lines here are nonempty
token lists; an empty line would make `thisLine[0]` raise in Python,
and `getD _ 0 ""` is only exercised on nonempty lines.) -/
def matchesFor (netlist : List (List String)) (name : String) : List ℕ :=
  (List.range netlist.length).filter (fun k => pyIn name ((netlist.getD k []).getD 0 ("")))

/-- All matches, outer loop over requested names, inner over lines. -/
def resolveMatches (netlist : List (List String)) (names : List String) : List ℕ :=
  names.flatMap (matchesFor netlist)

/-- Outcome of the startup resolution. -/
inductive ResolveOutcome where
  | crash
  | abort
  | ok (optLine : List ℕ)
  deriving DecidableEq

/-- The startup resolution loop plus its count check. -/
def resolveBindings (netlist : List (List String)) (names : List String) : ResolveOutcome :=
  if names.length < (resolveMatches netlist names).length then ResolveOutcome.crash
  else if (resolveMatches netlist names).length ≠ names.length then ResolveOutcome.abort
  else ResolveOutcome.ok (resolveMatches netlist names)

/-- Netlist with two lines whose designators both contain "R12", plus
an unrelated line. -/
def nlDup : List (List String) :=
  [["R12", "1", "0", "1000"], ["R12x", "2", "0", "2000"], ["C5", "3", "0", "1n"]]

/-! ## Objective function residual (`optLTspice`, lines 123-152)

```
fresp = np.abs(outNode)
if matchMode == 2 or matchMode == 3: phase = np.unwrap(np.angle(outNode))
if matchMode == 1: optCurrent = fresp
if matchMode == 2: optCurrent = phase
if matchMode == 3: optCurrent = np.concatenate((fresp, phase))
if len(target) != len(optCurrent): print('ERROR,...'); sys.exit()
err = target - optCurrent
err = err * errWeights
return err
```
The named-trace reader `RawRead` and the numpy magnitude/phase
extraction are external collaborators; the magnitude trace `fresp` and
the unwrapped-phase trace `phase` enter the model as inputs (both have
the length of the simulator's frequency trace).  numpy elementwise
arithmetic on equal-length 1-D arrays is `zipWith`; a length mismatch
there raises (length-1 broadcasting is never exercised by the program,
the earlier `len` check pins `len(err) = len(target)`). -/

/-- The `optCurrent` selection; `none` models the `NameError` a match
mode outside {1,2,3} would raise (no branch binds `optCurrent`). -/
def optCurrentOf (matchMode : ℕ) (fresp phase : List ℚ) : Option (List ℚ) :=
  if matchMode = 1 then some fresp
  else if matchMode = 2 then some phase
  else if matchMode = 3 then some (fresp ++ phase)
  else none

/-- numpy elementwise binary operation on two 1-D arrays; `none`
models the broadcast `ValueError` on a length mismatch. -/
def npElemwise (g : ℚ → ℚ → ℚ) (a b : List ℚ) : Option (List ℚ) :=
  if a.length = b.length then some (List.zipWith g a b) else none

/-- Result of one objective-function evaluation (its residual part). -/
inductive EvalResult where
  | pyError
  | fatal
  | residual (err : List ℚ)
  deriving DecidableEq

/-- The residual computation at the tail of `optLTspice`. -/
def optLTspiceResidual (matchMode : ℕ) (fresp phase target errWeights : List ℚ) :
    EvalResult :=
  match optCurrentOf matchMode fresp phase with
  | none => EvalResult.pyError
  | some optCurrent =>
    if target.length ≠ optCurrent.length then EvalResult.fatal
    else
      match npElemwise (fun a b => a - b) target optCurrent with
      | none => EvalResult.pyError
      | some err =>
        match npElemwise (fun a b => a * b) err errWeights with
        | none => EvalResult.pyError
        | some werr => EvalResult.residual werr

/-! ## Netlist model mutation and serialization (`optLTspice`,
lines 87-100)

```
netlist[OptLine[k]][3] = f'{...:.12e}'
...
for k in range(numlines_netlist):
    fid_wr_netlist.write(' '.join(netlist[k]) + '\n')
```           -/

/-- `netlist[i][3] = tok`: replace token index 3 of line `i`. -/
def set_value (netlist : List (List String)) (i : ℕ) (tok : String) :
    List (List String) :=
  netlist.set i ((netlist.getD i []).set 3 tok)

/-- One serialized netlist record: tokens joined by single spaces plus
a newline. -/
def serLine (line : List String) : String := String.intercalate (" ") line ++ ("\n")

/-- The full netlist serialization, one record per line, in order. -/
def serializeNetlist (netlist : List (List String)) : String :=
  String.join (netlist.map serLine)

/-! ## Value Codec: engineering-notation token parsing (`main`,
lines 443-468)

```
newStr = thisLine[3]
newStr = newStr.replace(chr(181), 'u')
if not newStr.isnumeric():
    newStr = newStr.replace('M', 'e6')
    newStr = newStr.replace('G', 'e9')
    newStr = newStr.lower()
    newStr = newStr.replace('k', 'e3')
    newStr = newStr.replace('pf', 'e-12')
    newStr = newStr.replace('ph', 'e-12')
    newStr = newStr.replace('p', 'e-12')
    ... ('nf','nh','n' -> 'e-9'; 'uf','uh','u' -> 'e-6'; 'mf','mh','m' -> 'e-3')
nomParams[k] = float(newStr)
```
`str.replace` replaces every (non-overlapping, left-to-right)
occurrence; `str.lower` is ASCII lowercasing on these tokens;
`str.isnumeric` on ASCII text means nonempty-and-all-digits;
`float(...)` accepts `[sign] digits [. digits] [(e|E) [sign] digits]`
(the `inf`/`nan`/underscore forms are never produced here) and raises
`ValueError` otherwise, modelled as `none`. -/

/-- Python `str.replace`, fuel-driven (each step consumes at least one
character, so `fuel = length` suffices; the program never calls it with
an empty needle, which the guard sends to the no-op branch). -/
def pyReplaceF (needle repl : List Char) : ℕ → List Char → List Char
  | 0, s => s
  | _ + 1, [] => []
  | f + 1, c :: rest =>
    if needle ≠ [] ∧ needle.isPrefixOf (c :: rest) then
      repl ++ pyReplaceF needle repl f ((c :: rest).drop needle.length)
    else c :: pyReplaceF needle repl f rest

/-- Python `s.replace(needle, repl)`. -/
def pyReplace (s needle repl : List Char) : List Char := pyReplaceF needle repl s.length s

/-- Python `str.lower` on an ASCII character. -/
def asciiLower (c : Char) : Char :=
  if 'A' ≤ c ∧ c ≤ 'Z' then Char.ofNat (c.toNat + 32) else c

/-- Python `str.isnumeric` on ASCII text. -/
def pyIsNumeric (s : List Char) : Bool := ¬ s.isEmpty ∧ s.all Char.isDigit

/-- Numeric value of a digit string (most significant first). -/
def digitsVal (l : List Char) : ℕ := l.foldl (fun a c => 10 * a + (c.toNat - 48)) 0

/-- Strip one optional leading sign; returns (negative?, rest). -/
def splitSign (s : List Char) : Bool × List Char :=
  match s with
  | [] => (false, [])
  | c :: t => if c = '-' then (true, t) else if c = '+' then (false, t) else (false, s)

/-- Split at the first exponent marker `e`/`E`. -/
def splitAtExpCh : List Char → List Char × Option (List Char)
  | [] => ([], none)
  | c :: t =>
    if c = 'e' ∨ c = 'E' then ([], some t)
    else ((splitAtExpCh t).1.cons c, (splitAtExpCh t).2)

/-- Unsigned decimal mantissa `digits [. digits]` (at least one digit). -/
def parseUnsignedDec (s : List Char) : Option ℚ :=
  match s.dropWhile Char.isDigit with
  | [] => if s.isEmpty then none else some (digitsVal s : ℚ)
  | c :: fp =>
    if c = '.' ∧ fp.all Char.isDigit ∧ ¬((s.takeWhile Char.isDigit).isEmpty ∧ fp.isEmpty) then
      some ((digitsVal (s.takeWhile Char.isDigit) : ℚ) + (digitsVal fp : ℚ) / 10 ^ fp.length)
    else none

/-- Signed integer exponent. -/
def parseExpInt (s : List Char) : Option ℤ :=
  if (splitSign s).2.isEmpty ∨ ¬ (splitSign s).2.all Char.isDigit then none
  else some (if (splitSign s).1 then -(digitsVal (splitSign s).2 : ℤ)
             else (digitsVal (splitSign s).2 : ℤ))

/-- Python `float(...)` on the token grammar the program produces. -/
def pyFloat (s : List Char) : Option ℚ :=
  match parseUnsignedDec (splitAtExpCh (splitSign s).2).1 with
  | none => none
  | some m =>
    match (splitAtExpCh (splitSign s).2).2 with
    | none => some (if (splitSign s).1 then -m else m)
    | some es =>
      match parseExpInt es with
      | none => none
      | some e => some ((if (splitSign s).1 then -m else m) * 10 ^ e)

/-- The value-token parsing chain of `main` (lines 443-468). -/
def parseValueToken (tok : String) : Option ℚ :=
  let s0 := pyReplace tok.data [Char.ofNat 181] ['u']
  let s1 :=
    if pyIsNumeric s0 then s0
    else
      let a1 := pyReplace s0 ['M'] ("e6".data)
      let a2 := pyReplace a1 ['G'] ("e9".data)
      let a3 := a2.map asciiLower
      let a4 := pyReplace a3 ['k'] ("e3".data)
      let a5 := pyReplace a4 ['p', 'f'] ("e-12".data)
      let a6 := pyReplace a5 ['p', 'h'] ("e-12".data)
      let a7 := pyReplace a6 ['p'] ("e-12".data)
      let a8 := pyReplace a7 ['n', 'f'] ("e-9".data)
      let a9 := pyReplace a8 ['n', 'h'] ("e-9".data)
      let a10 := pyReplace a9 ['n'] ("e-9".data)
      let a11 := pyReplace a10 ['u', 'f'] ("e-6".data)
      let a12 := pyReplace a11 ['u', 'h'] ("e-6".data)
      let a13 := pyReplace a12 ['u'] ("e-6".data)
      let a14 := pyReplace a13 ['m', 'f'] ("e-3".data)
      let a15 := pyReplace a14 ['m', 'h'] ("e-3".data)
      pyReplace a15 ['m'] ("e-3".data)
  pyFloat s1

/-! ## Value Codec: float-to-token formatting (`optLTspice`, line 89)

```
netlist[OptLine[k]][3] = f'{nomParams[k]*np.exp(optParams[k]):.12e}'
```
`format(v, '.12e')` renders the exact value of the float `v` in
scientific notation with one integer digit and exactly 12 fractional
mantissa digits (correctly rounded, ties to even), followed by `e`, an
explicit exponent sign, and a zero-padded exponent of at least two
digits.  The float's exact value is modelled as a rational. -/

/-- Round to the nearest integer, ties to even (the rounding used by
Python's float formatting). -/
def roundHalfEven (q : ℚ) : ℤ :=
  if Int.fract q < 1/2 then ⌊q⌋
  else if 1/2 < Int.fract q then ⌊q⌋ + 1
  else if 2 ∣ ⌊q⌋ then ⌊q⌋ else ⌊q⌋ + 1

/-- The ASCII digit character for `d < 10`. -/
def digitCh (d : ℕ) : Char := Char.ofNat (48 + d)

/-- Decimal digit characters of `m`, most significant first. -/
def natDigitsMSB (m : ℕ) : List Char := ((Nat.digits 10 m).reverse).map digitCh

/-- Exponent field of `%.12e`: sign, then at least two digits. -/
def expChars (e : ℤ) : List Char :=
  (if e < 0 then '-' else '+') ::
    (if e.natAbs < 10 then ['0', digitCh e.natAbs] else natDigitsMSB e.natAbs)

/-- Scaled 13-digit mantissa integer and decimal exponent of a positive
value: the mantissa is `x / 10^(log10 x)` rounded at the 12th
fractional digit; rounding up to `10.0…0` carries into the exponent. -/
def sciMantExp (x : ℚ) : ℤ × ℤ :=
  if roundHalfEven (x * 10 ^ ((12 : ℤ) - Int.log 10 x)) = 10 ^ 13 then
    ((10 : ℤ) ^ 12, Int.log 10 x + 1)
  else (roundHalfEven (x * 10 ^ ((12 : ℤ) - Int.log 10 x)), Int.log 10 x)

/-- `format(x, '.12e')` for positive `x`: `d.dddddddddddd` then
`e±XX`. -/
def formatAbs (x : ℚ) : List Char :=
  match natDigitsMSB (sciMantExp x).1.toNat with
  | [] => []
  | d0 :: rest => d0 :: '.' :: (rest ++ 'e' :: expChars (sciMantExp x).2)

/-- `format(x, '.12e')` on any float value. -/
def formatE12 (x : ℚ) : String :=
  if x = 0 then ("0.000000000000e+00")
  else if x < 0 then String.mk ('-' :: formatAbs (-x)) else String.mk (formatAbs x)

/-- Number of significant (mantissa) digits of a token in exponential
notation: digit characters strictly before the exponent marker. -/
def mantissaDigitCount (s : List Char) : ℕ :=
  ((s.takeWhile (fun c => c ≠ 'e')).filter Char.isDigit).length

/-- Characters that plain suffix-free exponential notation may use. -/
def isPlainSciChar (c : Char) : Bool :=
  c.isDigit || c = '.' || c = 'e' || c = '+' || c = '-'

/-! ## Preferred-Series Quantizer (`round63`, lines 243-346)

```
if rnd is None: rnd = 'arithmetic'
rnd = r63ss2c(rnd).lower()          # r63ss2c is the identity
if ser not in E_SERIES: raise ValueError(...)
ns = E_SERIES[ser]
pwr = np.log10(X); idr = np.isfinite(pwr) & np.isreal(pwr)
if not np.any(idr): return np.full_like(X, np.nan)
omn = np.floor(np.min(pwr[idr])); omx = np.ceil(np.max(pwr[idr]))
temp = 10.0 ** np.arange(omn - 3, omx - 1)
pns = (ns.reshape((-1,1)) * temp.reshape((-1,1)).T).flatten(order='F')
edg = ... per rnd ('harmonic' | 'arithmetic' | 'up' | 'down', else raise)
idx = np.digitize(X[idr], edg); idx[idx == 0] = 1
Y = pns[idx - 0]
```
For the scalar positive inputs this program feeds it (`update_schematic`
calls `round63(instValNext, roundStringNext)`), `pwr = log10 X` is
finite real iff `X > 0` (modelled as rationals with exact
`Int.log`/`Int.clog` in place of floating `floor(log10 ·)` and
`ceil(log10 ·)`); `np.arange(omn-3, omx-1)` spans the
`omx - omn + 2` decades starting at `omn - 3`; the column-major
flatten makes `pns` the decade-by-decade ascending expansion;
`np.digitize(x, edg)` on the increasing edge vector returns the count
of edges `≤ x`.  `pns[:-1]`/`pns[1:]` for the `up`/`down` policies are
expressed through the same `zipWith` frame (see
`zipWith_fst_eq_dropLast` / `zipWith_snd_eq_tail`). -/

/-- `E_SERIES['E3']` (40% tolerance). -/
def seriesE3 : List ℕ := [100, 220, 470]

/-- `E_SERIES['E6']` (20% tolerance). -/
def seriesE6 : List ℕ := [100, 150, 220, 330, 470, 680]

/-- `E_SERIES['E12']` (10% tolerance). -/
def seriesE12 : List ℕ := [100, 120, 150, 180, 220, 270, 330, 390, 470, 560, 680, 820]

/-- `E_SERIES['E24']` (5% tolerance). -/
def seriesE24 : List ℕ := [
    100, 110, 120, 130, 150, 160, 180, 200, 220, 240, 270, 300,
    330, 360, 390, 430, 470, 510, 560, 620, 680, 750, 820, 910]

/-- `E_SERIES['E48']` (2% tolerance). -/
def seriesE48 : List ℕ := [
    100, 105, 110, 115, 121, 127, 133, 140, 147, 154, 162, 169,
    178, 187, 196, 205, 215, 226, 237, 249, 261, 274, 287, 301,
    316, 332, 348, 365, 383, 402, 422, 442, 464, 487, 511, 536,
    562, 590, 619, 649, 681, 715, 750, 787, 825, 866, 909, 953]

/-- `E_SERIES['E96']` (1% tolerance). -/
def seriesE96 : List ℕ := [
    100, 102, 105, 107, 110, 113, 115, 118, 121, 124, 127, 130,
    133, 137, 140, 143, 147, 150, 154, 158, 162, 165, 169, 174,
    178, 182, 187, 191, 196, 200, 205, 210, 215, 221, 226, 232,
    237, 243, 249, 255, 261, 267, 274, 280, 287, 294, 301, 309,
    316, 324, 332, 340, 348, 357, 365, 374, 383, 392, 402, 412,
    422, 432, 442, 453, 464, 475, 487, 499, 511, 523, 536, 549,
    562, 576, 590, 604, 619, 634, 649, 665, 681, 698, 715, 732,
    750, 768, 787, 806, 825, 845, 866, 887, 909, 931, 953, 976]

/-- `E_SERIES['E192']` (0.5% tolerance). -/
def seriesE192 : List ℕ := [
    100, 101, 102, 104, 105, 106, 107, 109, 110, 111, 113, 114,
    115, 117, 118, 120, 121, 123, 124, 126, 127, 129, 130, 132,
    133, 135, 137, 138, 140, 142, 143, 145, 147, 149, 150, 152,
    154, 156, 158, 160, 162, 164, 165, 167, 169, 172, 174, 176,
    178, 180, 182, 184, 187, 189, 191, 193, 196, 198, 200, 203,
    205, 208, 210, 213, 215, 218, 221, 223, 226, 229, 232, 234,
    237, 240, 243, 246, 249, 252, 255, 258, 261, 264, 267, 271,
    274, 277, 280, 284, 287, 291, 294, 298, 301, 305, 309, 312,
    316, 320, 324, 328, 332, 336, 340, 344, 348, 352, 357, 361,
    365, 370, 374, 379, 383, 388, 392, 397, 402, 407, 412, 417,
    422, 427, 432, 437, 442, 448, 453, 459, 464, 470, 475, 481,
    487, 493, 499, 505, 511, 517, 523, 530, 536, 542, 549, 556,
    562, 569, 576, 583, 590, 597, 604, 612, 619, 626, 634, 642,
    649, 657, 665, 673, 681, 690, 698, 706, 715, 723, 732, 741,
    750, 759, 768, 777, 787, 796, 806, 816, 825, 835, 845, 856,
    866, 876, 887, 898, 909, 920, 931, 942, 953, 965, 976, 988]

/-- The series lookup (`ser not in E_SERIES` raises). -/
def eSeriesTable (ser : String) : Option (List ℕ) :=
  if ser = "E3" then some seriesE3
  else if ser = "E6" then some seriesE6
  else if ser = "E12" then some seriesE12
  else if ser = "E24" then some seriesE24
  else if ser = "E48" then some seriesE48
  else if ser = "E96" then some seriesE96
  else if ser = "E192" then some seriesE192
  else none

/-- The bin-edge builder between consecutive extended-series
neighbours, per policy. -/
def edgeFn (rnd : String) : Option (ℚ → ℚ → ℚ) :=
  if rnd = "harmonic" then some (fun a b => 2 * a * b / (a + b))
  else if rnd = "arithmetic" then some (fun a b => (a + b) / 2)
  else if rnd = "up" then some (fun a _ => a)
  else if rnd = "down" then some (fun _ b => b)
  else none

/-- Python `str.lower` (ASCII). -/
def pyLower (s : String) : String := String.mk (s.data.map asciiLower)

/-- The extended series `pns`: `n` decades starting at `10 ^ lo`, each
the base table scaled, in ascending (column-major flatten) order. -/
def decExt (ns : List ℕ) (lo : ℤ) (n : ℕ) : List ℚ :=
  (List.range n).flatMap (fun i => ns.map (fun s : ℕ => (s : ℚ) * 10 ^ (lo + (i : ℤ))))

/-- All bin edges: the edge builder on consecutive `pns` pairs
(`zipWith f pns pns.tail`); equals the source's `dropLast`/`tail` for
the `up`/`down` projections. -/
def edgesF (f : ℚ → ℚ → ℚ) (l : List ℚ) : List ℚ := List.zipWith f l l.tail

/-- `np.digitize(x, edg)` for an increasing edge vector: the number of
edges `≤ x`. -/
def digitizeIdx (x : ℚ) (edg : List ℚ) : ℕ := edg.countP (fun e => e ≤ x)

/-- The bin lookup `Y = pns[idx]` after the `idx[idx == 0] = 1`
clamp, over the table spanning `n` decades from `10 ^ lo`. -/
def r63core (f : ℚ → ℚ → ℚ) (ns : List ℕ) (x : ℚ) (lo : ℤ) (n : ℕ) : ℚ :=
  (decExt ns lo n).getD
    (if digitizeIdx x (edgesF f (decExt ns lo n)) = 0 then 1
     else digitizeIdx x (edgesF f (decExt ns lo n))) 0

/-- `round63` on a positive scalar, after series/policy resolution:
`omn = ⌊log10 x⌋`, `omx = ⌈log10 x⌉`, decades `omn-3, …, omx-2`. -/
def round63pos (x : ℚ) (ns : List ℕ) (f : ℚ → ℚ → ℚ) : ℚ :=
  r63core f ns x (Int.log 10 x - 3) (Int.clog 10 x - Int.log 10 x + 2).toNat

/-- Result of a `round63` call: a raised `ValueError`, the NaN output
for non-positive input, or a series value. -/
inductive R63Result where
  | raise (msg : String)
  | nanOut
  | val (y : ℚ)
  deriving DecidableEq

/-- The full `round63(X, ser, rnd)` on a scalar. -/
def round63 (x : ℚ) (ser : String) (rnd : Option String) : R63Result :=
  match eSeriesTable ser with
  | none => R63Result.raise ("Series is not supported.")
  | some ns =>
    if x ≤ 0 then R63Result.nanOut
    else
      match edgeFn (pyLower (rnd.getD ("arithmetic"))) with
      | none => R63Result.raise ("Rounding method is not supported.")
      | some f => R63Result.val (round63pos x ns f)

/-- Well-formedness of a base table: strictly ascending, one decade
(all values in `[100, 988]`), starting at 100, at least two entries. -/
def seriesOK (ns : List ℕ) : Prop :=
  List.Chain' (· < ·) ns ∧ (∀ s ∈ ns, 100 ≤ s ∧ s ≤ 988) ∧
    ns.head? = some 100 ∧ 2 ≤ ns.length

/-- Edge builders that sit (weakly) between their neighbours. -/
def edgeWeak (f : ℚ → ℚ → ℚ) : Prop :=
  ∀ a b : ℚ, 0 < a → a < b → a ≤ f a b ∧ f a b ≤ b

/-- Edge builders strictly above the lower neighbour (all policies
except `up`). -/
def edgeLowStrict (f : ℚ → ℚ → ℚ) : Prop :=
  ∀ a b : ℚ, 0 < a → a < b → a < f a b ∧ f a b ≤ b

/-- Bool chain check used to certify the series tables. -/
def chainLtB : List ℕ → Bool
  | [] => true
  | [_] => true
  | a :: b :: t => decide (a < b) && chainLtB (b :: t)

/-! ## Helper lemmas -/

theorem chainLtB_iff : ∀ l : List ℕ, chainLtB l = true ↔ List.Chain' (· < ·) l := by
  intro l
  induction l with
  | nil => simp [chainLtB]
  | cons a t ih =>
    cases t with
    | nil => simp [chainLtB]
    | cons b t' =>
      rw [chainLtB, List.chain'_cons, Bool.and_eq_true, decide_eq_true_eq, ih]

theorem seriesE3_ok : seriesOK seriesE3 :=
  ⟨(chainLtB_iff _).mp (by decide), by decide, by decide, by decide⟩

theorem seriesE6_ok : seriesOK seriesE6 :=
  ⟨(chainLtB_iff _).mp (by decide), by decide, by decide, by decide⟩

theorem seriesE12_ok : seriesOK seriesE12 :=
  ⟨(chainLtB_iff _).mp (by decide), by decide, by decide, by decide⟩

theorem seriesE24_ok : seriesOK seriesE24 :=
  ⟨(chainLtB_iff _).mp (by decide), by decide, by decide, by decide⟩

theorem seriesE48_ok : seriesOK seriesE48 :=
  ⟨(chainLtB_iff _).mp (by decide), by decide, by decide, by decide⟩

theorem seriesE96_ok : seriesOK seriesE96 :=
  ⟨(chainLtB_iff _).mp (by decide), by decide, by decide, by decide⟩

theorem seriesE192_ok : seriesOK seriesE192 :=
  ⟨(chainLtB_iff _).mp (by decide), by decide, by decide, by decide⟩

theorem eSeriesTable_ok {ser : String} {ns : List ℕ} (h : eSeriesTable ser = some ns) :
    seriesOK ns := by
  unfold eSeriesTable at h
  split_ifs at h <;> cases h
  · exact seriesE3_ok
  · exact seriesE6_ok
  · exact seriesE12_ok
  · exact seriesE24_ok
  · exact seriesE48_ok
  · exact seriesE96_ok
  · exact seriesE192_ok

theorem edgeFn_weak {rnd : String} {f : ℚ → ℚ → ℚ} (h : edgeFn rnd = some f) : edgeWeak f := by
  unfold edgeFn at h
  split_ifs at h <;> cases h <;> intro a b ha hab
  · have hb : 0 < b := ha.trans hab
    have hs : 0 < a + b := by linarith
    constructor
    · rw [le_div_iff₀ hs]
      nlinarith
    · rw [div_le_iff₀ hs]
      nlinarith
  · constructor <;> [linarith; linarith]
  · exact ⟨le_refl a, hab.le⟩
  · exact ⟨hab.le, le_refl b⟩

theorem edgeFn_lowStrict {rnd : String} {f : ℚ → ℚ → ℚ}
    (h : edgeFn rnd = some f) (hne : rnd ≠ "up") : edgeLowStrict f := by
  unfold edgeFn at h
  split_ifs at h with h1 h2 h3 <;> cases h
  · intro a b ha hab
    have hb : 0 < b := ha.trans hab
    have hs : 0 < a + b := by linarith
    constructor
    · rw [lt_div_iff₀ hs]
      nlinarith
    · rw [div_le_iff₀ hs]
      nlinarith
  · intro a b ha hab
    constructor <;> [linarith; linarith]
  · intro a b ha hab
    exact ⟨hab, le_refl b⟩

theorem zipWith_fst_eq_dropLast (l : List ℚ) :
    List.zipWith (fun a _ => a) l l.tail = l.dropLast := by
  induction l with
  | nil => rfl
  | cons a t ih =>
    cases t with
    | nil => rfl
    | cons b t' =>
      show a :: List.zipWith (fun a _ => a) (b :: t') t' = (a :: b :: t').dropLast
      have h := ih
      rw [show (b :: t').tail = t' from rfl] at h
      rw [h]
      rfl

theorem zipWith_snd_eq_tail (l : List ℚ) :
    List.zipWith (fun _ b => b) l l.tail = l.tail := by
  induction l with
  | nil => rfl
  | cons a t ih =>
    cases t with
    | nil => rfl
    | cons b t' =>
      show b :: List.zipWith (fun _ b => b) (b :: t') t' = b :: t'
      have h := ih
      rw [show (b :: t').tail = t' from rfl] at h
      rw [h]

theorem edgesF_length (f : ℚ → ℚ → ℚ) (l : List ℚ) :
    (edgesF f l).length = l.length - 1 := by
  unfold edgesF
  rw [List.length_zipWith, List.length_tail]
  omega

theorem edgesF_cons (f : ℚ → ℚ → ℚ) (a b : ℚ) (t : List ℚ) :
    edgesF f (a :: b :: t) = f a b :: edgesF f (b :: t) := rfl

theorem decExt_zero (ns : List ℕ) (lo : ℤ) : decExt ns lo 0 = [] := rfl

theorem decExt_succ_top (ns : List ℕ) (lo : ℤ) (n : ℕ) :
    decExt ns lo (n + 1) =
      decExt ns lo n ++ ns.map (fun s : ℕ => (s : ℚ) * 10 ^ (lo + (n : ℤ))) := by
  unfold decExt
  rw [List.range_succ, List.flatMap_append, List.flatMap_cons, List.flatMap_nil,
    List.append_nil]

theorem decExt_one (ns : List ℕ) (lo : ℤ) :
    decExt ns lo 1 = ns.map (fun s : ℕ => (s : ℚ) * 10 ^ lo) := by
  rw [show (1 : ℕ) = 0 + 1 from rfl, decExt_succ_top, decExt_zero, List.nil_append]
  have hexp : lo + ((0 : ℕ) : ℤ) = lo := by simp
  rw [hexp]

theorem decExt_succ_bot (ns : List ℕ) (lo : ℤ) :
    ∀ n : ℕ, decExt ns lo (n + 1) =
      ns.map (fun s : ℕ => (s : ℚ) * 10 ^ lo) ++ decExt ns (lo + 1) n := by
  intro n
  induction n generalizing lo with
  | zero => rw [decExt_one, decExt_zero, List.append_nil]
  | succ n ih =>
    rw [decExt_succ_top, ih, List.append_assoc]
    have hexp : lo + (((n : ℕ) : ℤ) + 1) = (lo + 1) + ((n : ℕ) : ℤ) := by ring
    push_cast
    rw [hexp, ← decExt_succ_top]

theorem decExt_length (ns : List ℕ) (lo : ℤ) (n : ℕ) :
    (decExt ns lo n).length = n * ns.length := by
  induction n generalizing lo with
  | zero => simp [decExt_zero]
  | succ n ih =>
    rw [decExt_succ_bot, List.length_append, List.length_map, ih]
    ring

theorem decExt_pos {ns : List ℕ} (hns : seriesOK ns) (lo : ℤ) (n : ℕ) :
    ∀ y ∈ decExt ns lo n, 0 < y := by
  intro y hy
  simp only [decExt, List.mem_flatMap, List.mem_map, List.mem_range] at hy
  obtain ⟨i, -, s, hs, rfl⟩ := hy
  have h100 := (hns.2.1 s hs).1
  have hs0 : (0:ℚ) < (s:ℚ) := by exact_mod_cast (by omega : 0 < s)
  exact mul_pos hs0 (zpow_pos (by norm_num) _)

theorem decade_bounds {ns : List ℕ} (hns : seriesOK ns) (lo : ℤ) :
    ∀ y ∈ ns.map (fun s : ℕ => (s : ℚ) * 10 ^ lo),
      (100:ℚ) * 10 ^ lo ≤ y ∧ y ≤ (988:ℚ) * 10 ^ lo := by
  intro y hy
  rw [List.mem_map] at hy
  obtain ⟨s, hs, rfl⟩ := hy
  obtain ⟨hs1, hs2⟩ := hns.2.1 s hs
  have hz : (0:ℚ) ≤ 10 ^ lo := (zpow_pos (by norm_num) lo).le
  constructor
  · exact mul_le_mul_of_nonneg_right (by exact_mod_cast hs1) hz
  · exact mul_le_mul_of_nonneg_right (by exact_mod_cast hs2) hz

theorem decade_chain {ns : List ℕ} (hns : seriesOK ns) (lo : ℤ) :
    List.Chain' (· < ·) (ns.map (fun s : ℕ => (s : ℚ) * 10 ^ lo)) := by
  refine List.chain'_map_of_chain' _ (fun a b hab => ?_) hns.1
  exact mul_lt_mul_of_pos_right (by exact_mod_cast hab) (zpow_pos (by norm_num) lo)

theorem seriesOK_cons₂ {ns : List ℕ} (hns : seriesOK ns) :
    ∃ s2 t, ns = 100 :: s2 :: t ∧ 100 < s2 ∧ s2 ≤ 988 := by
  obtain ⟨hchain, hbd, hhead, hlen⟩ := hns
  cases ns with
  | nil => simp at hhead
  | cons a t =>
    cases t with
    | nil => simp at hlen
    | cons b t' =>
      have ha : a = 100 := by simpa using hhead
      subst ha
      have hab : 100 < b := (List.chain'_cons.mp hchain).1
      exact ⟨b, t', rfl, hab, (hbd b (by simp)).2⟩

theorem decExt_cons₂ {ns : List ℕ} (hns : seriesOK ns) (lo : ℤ) {n : ℕ} (hn : 1 ≤ n) :
    ∃ (s2 : ℕ) (tl : List ℚ),
      decExt ns lo n = ((100:ℚ) * 10 ^ lo) :: ((s2 : ℚ) * 10 ^ lo) :: tl ∧
      100 < s2 ∧ s2 ≤ 988 := by
  obtain ⟨s2, t, hns2, h1, h2⟩ := seriesOK_cons₂ hns
  obtain ⟨m, rfl⟩ : ∃ m, n = m + 1 := ⟨n - 1, by omega⟩
  rw [decExt_succ_bot, hns2]
  exact ⟨s2, _, rfl, h1, h2⟩

theorem seriesOK_getLast {ns : List ℕ} (hns : seriesOK ns) :
    ∃ s, ns.getLast? = some s ∧ 100 < s ∧ s ≤ 988 := by
  obtain ⟨s2, t, hns2, h1, h2⟩ := seriesOK_cons₂ hns
  subst hns2
  have hne : (100 :: s2 :: t) ≠ [] := by simp
  have hne2 : (s2 :: t) ≠ [] := by simp
  have hgl : (100 :: s2 :: t).getLast hne = (s2 :: t).getLast hne2 := List.getLast_cons hne2
  have hpw : List.Pairwise (· < ·) (100 :: s2 :: t) := List.chain'_iff_pairwise.mp hns.1
  have hall : ∀ y ∈ s2 :: t, 100 < y := (List.pairwise_cons.mp hpw).1
  refine ⟨(100 :: s2 :: t).getLast hne, List.getLast?_eq_getLast _ hne, ?_, ?_⟩
  · rw [hgl]
    exact hall _ (List.getLast_mem hne2)
  · exact (hns.2.1 _ (List.getLast_mem hne)).2

theorem decExt_getLast {ns : List ℕ} (hns : seriesOK ns) (lo : ℤ) {n : ℕ} (hn : 1 ≤ n) :
    ∃ s : ℕ, (decExt ns lo n).getLast? = some ((s : ℚ) * 10 ^ (lo + (n:ℤ) - 1)) ∧
      100 < s ∧ s ≤ 988 := by
  obtain ⟨m, rfl⟩ : ∃ m, n = m + 1 := ⟨n - 1, by omega⟩
  obtain ⟨s, hgl, h1, h2⟩ := seriesOK_getLast hns
  have hnsne : ns ≠ [] := by
    intro h
    rw [h] at hgl
    simp at hgl
  have hmapne : ns.map (fun s : ℕ => (s : ℚ) * 10 ^ (lo + (m:ℤ))) ≠ [] := by
    simpa using hnsne
  refine ⟨s, ?_, h1, h2⟩
  rw [decExt_succ_top, List.getLast?_append_of_ne_nil _ hmapne, List.getLast?_map, hgl]
  have hexp : lo + ((m + 1 : ℕ) : ℤ) - 1 = lo + (m:ℤ) := by push_cast; ring
  rw [hexp]
  rfl

theorem decExt_chain {ns : List ℕ} (hns : seriesOK ns) (lo : ℤ) (n : ℕ) :
    List.Chain' (· < ·) (decExt ns lo n) := by
  induction n generalizing lo with
  | zero => rw [decExt_zero]; exact List.chain'_nil
  | succ n ih =>
    rw [decExt_succ_bot]
    rw [List.chain'_append]
    refine ⟨decade_chain hns lo, ih (lo + 1), ?_⟩
    intro x hx y hy
    have hxmem : x ∈ ns.map (fun s : ℕ => (s : ℚ) * 10 ^ lo) := List.mem_of_mem_getLast? hx
    have hxle : x ≤ (988:ℚ) * 10 ^ lo := (decade_bounds hns lo x hxmem).2
    cases n with
    | zero => rw [decExt_zero] at hy; simp at hy
    | succ m =>
      obtain ⟨s2, tl, hshape, -, -⟩ := decExt_cons₂ hns (lo + 1) (by omega : 1 ≤ m + 1)
      rw [hshape] at hy
      simp only [List.head?_cons, Option.mem_def, Option.some_inj] at hy
      subst hy
      have hten : (10:ℚ) ^ (lo + 1) = 10 ^ lo * 10 := by
        rw [zpow_add₀ (by norm_num : (10:ℚ) ≠ 0)]
        norm_num
      calc x ≤ (988:ℚ) * 10 ^ lo := hxle
        _ < (100:ℚ) * 10 ^ (lo + 1) := by
            rw [hten]
            have hz : (0:ℚ) < 10 ^ lo := zpow_pos (by norm_num) lo
            nlinarith
        _ = (100:ℚ) * 10 ^ (lo + 1) := rfl

theorem decExt_pairwise {ns : List ℕ} (hns : seriesOK ns) (lo : ℤ) (n : ℕ) :
    List.Pairwise (· < ·) (decExt ns lo n) :=
  List.chain'_iff_pairwise.mp (decExt_chain hns lo n)

theorem digitize_cons (x : ℚ) (f : ℚ → ℚ → ℚ) (a b : ℚ) (t : List ℚ) :
    digitizeIdx x (edgesF f (a :: b :: t)) =
      (if f a b ≤ x then 1 else 0) + digitizeIdx x (edgesF f (b :: t)) := by
  rw [edgesF_cons]
  unfold digitizeIdx
  rw [List.countP_cons]
  by_cases h : f a b ≤ x <;> simp [h, Nat.add_comm]

theorem edges_gt_head (f : ℚ → ℚ → ℚ) (hf : edgeLowStrict f) :
    ∀ (B : List ℚ) (h : ℚ), List.Pairwise (· < ·) (h :: B) → (∀ p ∈ h :: B, 0 < p) →
      ∀ e ∈ edgesF f (h :: B), h < e := by
  intro B
  induction B with
  | nil =>
    intro h _ _ e he
    simp [edgesF] at he
  | cons b B' ih =>
    intro h hpw hpos e he
    rw [edgesF_cons] at he
    have hhb : h < b := (List.pairwise_cons.mp hpw).1 b (List.mem_cons_self b B')
    have hh0 : 0 < h := hpos h (List.mem_cons_self _ _)
    rcases List.mem_cons.mp he with rfl | he
    · exact (hf h b hh0 hhb).1
    · have hb := ih b (List.pairwise_cons.mp hpw).2
        (fun p hp => hpos p (List.mem_cons_of_mem h hp)) e he
      exact hhb.trans hb

theorem digitize_snoc (f : ℚ → ℚ → ℚ) (hfw : edgeWeak f) (x s : ℚ) :
    ∀ (l : List ℚ) (y : ℚ), l.getLast? = some y →
      List.Pairwise (· < ·) (l ++ [s]) → (∀ p ∈ l, 0 < p) → x < y →
      digitizeIdx x (edgesF f (l ++ [s])) = digitizeIdx x (edgesF f l) := by
  intro l
  induction l with
  | nil =>
    intro y hy
    simp at hy
  | cons a t ih =>
    intro y hy hpw hpos hxy
    cases t with
    | nil =>
      have hay : a = y := by simpa using hy
      subst hay
      have has : a < s := by
        have := List.pairwise_cons.mp hpw
        exact this.1 s (by simp)
      have ha0 : 0 < a := hpos a (by simp)
      have hfa : ¬ (f a s ≤ x) := by
        have := (hfw a s ha0 has).1
        intro hle
        exact absurd (hle.trans_lt hxy) (not_lt.mpr this)
      show digitizeIdx x (edgesF f (a :: s :: [])) = digitizeIdx x (edgesF f [a])
      rw [digitize_cons]
      simp [hfa, digitizeIdx, edgesF]
    | cons b t' =>
      have hy' : (b :: t').getLast? = some y := by
        rwa [List.getLast?_cons_cons] at hy
      have hstep : ((a :: b :: t') ++ [s]) = a :: ((b :: t') ++ [s]) := rfl
      rw [hstep, show (b :: t') ++ [s] = b :: (t' ++ [s]) from rfl]
      rw [digitize_cons, digitize_cons]
      rw [show b :: (t' ++ [s]) = (b :: t') ++ [s] from rfl]
      rw [ih y hy' (by
          have : (a :: b :: t') ++ [s] = a :: ((b :: t') ++ [s]) := rfl
          rw [this] at hpw
          exact (List.pairwise_cons.mp hpw).2)
        (fun p hp => hpos p (List.mem_cons_of_mem a hp)) hxy]

theorem digitize_drop_suffix (f : ℚ → ℚ → ℚ) (hfw : edgeWeak f) (x : ℚ) :
    ∀ (S l : List ℚ) (y : ℚ), l.getLast? = some y →
      List.Pairwise (· < ·) (l ++ S) → (∀ p ∈ l ++ S, 0 < p) →
      x < y → (∀ p ∈ S, x < p) →
      digitizeIdx x (edgesF f (l ++ S)) = digitizeIdx x (edgesF f l) := by
  intro S
  induction S with
  | nil =>
    intro l y _ _ _ _ _
    rw [List.append_nil]
  | cons s S' ih =>
    intro l y hy hpw hpos hxy hS
    have hassoc : l ++ s :: S' = (l ++ [s]) ++ S' := by simp
    rw [hassoc]
    have hpw' : List.Pairwise (· < ·) ((l ++ [s]) ++ S') := by rwa [← hassoc]
    have hpos' : ∀ p ∈ (l ++ [s]) ++ S', 0 < p := by
      intro p hp
      apply hpos
      rwa [hassoc]
    have h1 := ih (l ++ [s]) s (List.getLast?_concat l) hpw' hpos'
      (hS s (List.mem_cons_self s S')) (fun p hp => hS p (List.mem_cons_of_mem s hp))
    rw [h1]
    apply digitize_snoc f hfw x s l y hy
    · refine hpw'.sublist ?_
      exact List.sublist_append_left (l ++ [s]) S'
    · intro p hp
      exact hpos p (List.mem_append_left _ hp)
    · exact hxy

theorem digitize_prepend (f : ℚ → ℚ → ℚ) (hfw : edgeWeak f) (x : ℚ) :
    ∀ (P l : List ℚ), l ≠ [] →
      List.Pairwise (· < ·) (P ++ l) → (∀ p ∈ P ++ l, 0 < p) →
      (∀ p ∈ P, p ≤ x) → (∀ hd ∈ l.head?, hd ≤ x) →
      digitizeIdx x (edgesF f (P ++ l)) = P.length + digitizeIdx x (edgesF f l) := by
  intro P
  induction P with
  | nil =>
    intro l _ _ _ _ _
    rw [List.nil_append, List.length_nil, Nat.zero_add]
  | cons p P' ih =>
    intro l hl hpw hpos hPx hhd
    have hne : P' ++ l ≠ [] := by
      intro hctr
      rcases List.append_eq_nil.mp hctr with ⟨-, h2⟩
      exact hl h2
    obtain ⟨q, rest, hql⟩ : ∃ q rest, P' ++ l = q :: rest := by
      cases hq : P' ++ l with
      | nil => exact absurd hq hne
      | cons q rest => exact ⟨q, rest, rfl⟩
    have hq_le : q ≤ x := by
      cases P' with
      | nil =>
        rw [List.nil_append] at hql
        apply hhd
        rw [hql]
        rfl
      | cons p2 P'' =>
        rw [List.cons_append] at hql
        injection hql with h1 h2
        rw [← h1]
        exact hPx p2 (List.mem_cons_of_mem p (List.mem_cons_self p2 P''))
    have hq_mem : q ∈ P' ++ l := by
      rw [hql]
      exact List.mem_cons_self q rest
    have hpq : p < q := (List.pairwise_cons.mp hpw).1 q hq_mem
    have hp0 : 0 < p := hpos p (List.mem_cons_self _ _)
    have hfpq : f p q ≤ x := ((hfw p q hp0 hpq).2).trans hq_le
    have hstep : (p :: P') ++ l = p :: q :: rest := by
      rw [List.cons_append, hql]
    rw [hstep, digitize_cons, if_pos hfpq, ← hql]
    rw [ih l hl (List.pairwise_cons.mp hpw).2
      (fun a ha => hpos a (List.mem_cons_of_mem p ha))
      (fun a ha => hPx a (List.mem_cons_of_mem p ha)) hhd]
    rw [List.length_cons]
    omega

theorem digitize_at_member (f : ℚ → ℚ → ℚ) (hf : edgeLowStrict f) (v : ℚ) :
    ∀ (A B : List ℚ), List.Pairwise (· < ·) (A ++ v :: B) → (∀ p ∈ A ++ v :: B, 0 < p) →
      digitizeIdx v (edgesF f (A ++ v :: B)) = A.length := by
  intro A
  induction A with
  | nil =>
    intro B hpw hpos
    rw [List.nil_append, List.length_nil]
    unfold digitizeIdx
    rw [List.countP_eq_zero]
    intro e he
    have hv : v < e := edges_gt_head f hf B v hpw hpos e he
    simp only [decide_eq_true_eq]
    exact not_le.mpr hv
  | cons a A' ih =>
    intro B hpw hpos
    obtain ⟨q, rest, hql⟩ : ∃ q rest, A' ++ v :: B = q :: rest := by
      cases hq : A' ++ v :: B with
      | nil => exact absurd hq (by simp)
      | cons q rest => exact ⟨q, rest, rfl⟩
    have hq_le : q ≤ v := by
      cases A' with
      | nil =>
        rw [List.nil_append] at hql
        injection hql with h1 h2
        rw [← h1]
      | cons a2 A'' =>
        rw [List.cons_append] at hql
        injection hql with h1 h2
        rw [← h1]
        have hpwA : List.Pairwise (· < ·) ((a2 :: A'') ++ v :: B) :=
          (List.pairwise_cons.mp hpw).2
        have hsplit := (List.pairwise_append.mp hpwA).2.2
        exact (hsplit a2 (List.mem_cons_self _ _) v (List.mem_cons_self _ _)).le
    have hq_mem : q ∈ A' ++ v :: B := by
      rw [hql]
      exact List.mem_cons_self q rest
    have hpq : a < q := (List.pairwise_cons.mp hpw).1 q hq_mem
    have ha0 : 0 < a := hpos a (List.mem_cons_self _ _)
    have hfaq : f a q ≤ v := ((hf a q ha0 hpq).2).trans hq_le
    have hstep : (a :: A') ++ v :: B = a :: q :: rest := by
      rw [List.cons_append, hql]
    rw [hstep, digitize_cons, if_pos hfaq, ← hql]
    rw [ih B (List.pairwise_cons.mp hpw).2
      (fun p hp => hpos p (List.mem_cons_of_mem a hp))]
    rw [List.length_cons]
    omega

theorem ten_zpow_le {a b : ℤ} (h : a ≤ b) : (10:ℚ) ^ a ≤ 10 ^ b :=
  zpow_le_zpow_right₀ (by norm_num) h

theorem ten_zpow_add (e : ℤ) (k : ℤ) : (10:ℚ) ^ (e + k) = 10 ^ e * 10 ^ k :=
  zpow_add₀ (by norm_num) e k

theorem scaled_lt_pow3 {s : ℕ} (hs : s ≤ 988) (e : ℤ) : (s:ℚ) * 10 ^ e < 10 ^ (e + 3) := by
  have hcast : (s:ℚ) ≤ 988 := by exact_mod_cast hs
  have hz : (0:ℚ) < 10 ^ e := zpow_pos (by norm_num) e
  rw [ten_zpow_add e 3]
  nlinarith

theorem pow2_le_scaled {s : ℕ} (hs : 100 ≤ s) (e : ℤ) : (10:ℚ) ^ (e + 2) ≤ (s:ℚ) * 10 ^ e := by
  have hcast : (100:ℚ) ≤ (s:ℚ) := by exact_mod_cast hs
  have hz : (0:ℚ) < 10 ^ e := zpow_pos (by norm_num) e
  rw [ten_zpow_add e 2]
  nlinarith

theorem getD_append_left {l₁ l₂ : List ℚ} {m : ℕ} (h : m < l₁.length) :
    (l₁ ++ l₂).getD m 0 = l₁.getD m 0 := by
  rw [List.getD_eq_getElem?_getD, List.getD_eq_getElem?_getD, List.getElem?_append, if_pos h]

theorem getD_append_right (l₁ l₂ : List ℚ) (m : ℕ) :
    (l₁ ++ l₂).getD (l₁.length + m) 0 = l₂.getD m 0 := by
  rw [List.getD_eq_getElem?_getD, List.getD_eq_getElem?_getD,
    List.getElem?_append_right (by omega : l₁.length ≤ l₁.length + m),
    show l₁.length + m - l₁.length = m by omega]

theorem getD_mono_sorted {l : List ℚ} (hpw : List.Pairwise (· < ·) l)
    {i j : ℕ} (hij : i ≤ j) (hj : j < l.length) : l.getD i 0 ≤ l.getD j 0 := by
  have hi : i < l.length := lt_of_le_of_lt hij hj
  rw [List.getD_eq_getElem?_getD, List.getD_eq_getElem?_getD,
    List.getElem?_eq_getElem hi, List.getElem?_eq_getElem hj]
  simp only [Option.getD_some]
  rcases Nat.lt_or_ge i j with h | h
  · exact (List.pairwise_iff_getElem.mp hpw i j hi hj h).le
  · have hieq : i = j := le_antisymm hij h
    subst hieq
    rfl

theorem digitizeIdx_le (x : ℚ) (f : ℚ → ℚ → ℚ) (l : List ℚ) :
    digitizeIdx x (edgesF f l) ≤ l.length - 1 := by
  unfold digitizeIdx
  calc (edgesF f l).countP (fun e => e ≤ x) ≤ (edgesF f l).length :=
        List.countP_le_length _
    _ = l.length - 1 := edgesF_length f l

theorem decExt_len_ge2 {ns : List ℕ} (hns : seriesOK ns) (lo : ℤ) {n : ℕ} (hn : 1 ≤ n) :
    2 ≤ (decExt ns lo n).length := by
  rw [decExt_length]
  have h2 := hns.2.2.2
  have : 1 * ns.length ≤ n * ns.length := Nat.mul_le_mul_right _ hn
  omega

theorem r63core_mono_x {ns : List ℕ} (hns : seriesOK ns) (f : ℚ → ℚ → ℚ) (lo : ℤ) {n : ℕ}
    (hn : 1 ≤ n) {x1 x2 : ℚ} (h12 : x1 ≤ x2) :
    r63core f ns x1 lo n ≤ r63core f ns x2 lo n := by
  have hlen := decExt_len_ge2 hns lo hn
  have hidx : digitizeIdx x1 (edgesF f (decExt ns lo n)) ≤
      digitizeIdx x2 (edgesF f (decExt ns lo n)) := by
    unfold digitizeIdx
    refine List.countP_mono_left (fun e _ he => ?_)
    simp only [decide_eq_true_eq] at he ⊢
    exact he.trans h12
  have hle1 := digitizeIdx_le x1 f (decExt ns lo n)
  have hle2 := digitizeIdx_le x2 f (decExt ns lo n)
  unfold r63core
  apply getD_mono_sorted (decExt_pairwise hns lo n)
  · split_ifs <;> omega
  · split_ifs <;> omega

theorem r63core_drop_top {ns : List ℕ} {f : ℚ → ℚ → ℚ} (hns : seriesOK ns) (hfw : edgeWeak f)
    {x : ℚ} (lo : ℤ) {n : ℕ} (hn : 1 ≤ n)
    (hxtop : x ≤ (10:ℚ) ^ (lo + (n:ℤ) + 1)) :
    r63core f ns x lo (n + 1) = r63core f ns x lo n := by
  have hsplit := decExt_succ_top ns lo n
  obtain ⟨sl, hgl, hsl1, hsl2⟩ := decExt_getLast hns lo hn
  have hxlast : x < (sl : ℚ) * 10 ^ (lo + (n:ℤ) - 1) := by
    have h2 : (10:ℚ) ^ (lo + (n:ℤ) + 1) = 10 ^ ((lo + (n:ℤ) - 1) + 2) := by
      congr 1
      ring
    calc x ≤ (10:ℚ) ^ (lo + (n:ℤ) + 1) := hxtop
      _ = 10 ^ ((lo + (n:ℤ) - 1) + 2) := h2
      _ ≤ (100:ℚ) * 10 ^ (lo + (n:ℤ) - 1) := by
          rw [ten_zpow_add]
          have hz : (0:ℚ) < 10 ^ (lo + (n:ℤ) - 1) := zpow_pos (by norm_num) _
          nlinarith
      _ < (sl : ℚ) * 10 ^ (lo + (n:ℤ) - 1) := by
          have hz : (0:ℚ) < 10 ^ (lo + (n:ℤ) - 1) := zpow_pos (by norm_num) _
          have : (100:ℚ) < (sl:ℚ) := by exact_mod_cast hsl1
          nlinarith
  have hSgt : ∀ p ∈ ns.map (fun s : ℕ => (s : ℚ) * 10 ^ (lo + (n:ℤ))), x < p := by
    intro p hp
    have hlow := (decade_bounds hns (lo + (n:ℤ)) p hp).1
    calc x ≤ (10:ℚ) ^ (lo + (n:ℤ) + 1) := hxtop
      _ < (100:ℚ) * 10 ^ (lo + (n:ℤ)) := by
          rw [ten_zpow_add]
          have hz : (0:ℚ) < 10 ^ (lo + (n:ℤ)) := zpow_pos (by norm_num) _
          nlinarith
      _ ≤ p := hlow
  have hpw : List.Pairwise (· < ·)
      (decExt ns lo n ++ ns.map (fun s : ℕ => (s : ℚ) * 10 ^ (lo + (n:ℤ)))) := by
    rw [← hsplit]
    exact decExt_pairwise hns lo (n + 1)
  have hpos : ∀ p ∈ decExt ns lo n ++ ns.map (fun s : ℕ => (s : ℚ) * 10 ^ (lo + (n:ℤ))),
      0 < p := by
    intro p hp
    rw [← hsplit] at hp
    exact decExt_pos hns lo (n + 1) p hp
  have hd : digitizeIdx x (edgesF f (decExt ns lo (n + 1))) =
      digitizeIdx x (edgesF f (decExt ns lo n)) := by
    rw [hsplit]
    exact digitize_drop_suffix f hfw x _ _ _ hgl hpw hpos hxlast hSgt
  have hlen := decExt_len_ge2 hns lo hn
  have hle := digitizeIdx_le x f (decExt ns lo n)
  unfold r63core
  rw [hd, hsplit, getD_append_left]
  split_ifs <;> omega

theorem r63core_drop_bot {ns : List ℕ} {f : ℚ → ℚ → ℚ} (hns : seriesOK ns) (hfw : edgeWeak f)
    {x : ℚ} (lo : ℤ) {n : ℕ} (hn : 1 ≤ n)
    (hx : (10:ℚ) ^ (lo + 4) ≤ x) :
    r63core f ns x lo (n + 1) = r63core f ns x (lo + 1) n := by
  have hsplit := decExt_succ_bot ns lo n
  obtain ⟨s2, tl, hshape, hs21, hs22⟩ := decExt_cons₂ hns (lo + 1) hn
  have hx0 : 0 < x := lt_of_lt_of_le (zpow_pos (by norm_num) _) hx
  have hPle : ∀ p ∈ ns.map (fun s : ℕ => (s : ℚ) * 10 ^ lo), p ≤ x := by
    intro p hp
    have h988 := (decade_bounds hns lo p hp).2
    have hlt : (988:ℚ) * 10 ^ lo < 10 ^ (lo + 3) := scaled_lt_pow3 (by norm_num) lo
    have hle : (10:ℚ) ^ (lo + 3) ≤ 10 ^ (lo + 4) := ten_zpow_le (by omega)
    linarith
  have hhd : ∀ hd ∈ (decExt ns (lo + 1) n).head?, hd ≤ x := by
    intro hd hhd
    rw [hshape] at hhd
    simp only [List.head?_cons, Option.mem_def, Option.some_inj] at hhd
    subst hhd
    have h1 : (100:ℚ) * 10 ^ (lo + 1) = 10 ^ (lo + 3) := by
      rw [show lo + 3 = (lo + 1) + 2 by ring, ten_zpow_add (lo + 1) 2]
      have h2 : (10:ℚ) ^ (2:ℤ) = 100 := by norm_num
      rw [h2]
      ring
    rw [h1]
    exact (ten_zpow_le (by omega)).trans hx
  have hpw : List.Pairwise (· < ·)
      (ns.map (fun s : ℕ => (s : ℚ) * 10 ^ lo) ++ decExt ns (lo + 1) n) := by
    rw [← hsplit]
    exact decExt_pairwise hns lo (n + 1)
  have hpos : ∀ p ∈ ns.map (fun s : ℕ => (s : ℚ) * 10 ^ lo) ++ decExt ns (lo + 1) n, 0 < p := by
    intro p hp
    rw [← hsplit] at hp
    exact decExt_pos hns lo (n + 1) p hp
  have hlne : decExt ns (lo + 1) n ≠ [] := by
    rw [hshape]
    simp
  have hd : digitizeIdx x (edgesF f (decExt ns lo (n + 1))) =
      ns.length + digitizeIdx x (edgesF f (decExt ns (lo + 1) n)) := by
    rw [hsplit]
    have := digitize_prepend f hfw x (ns.map (fun s : ℕ => (s : ℚ) * 10 ^ lo))
      (decExt ns (lo + 1) n) hlne hpw hpos hPle hhd
    rwa [List.length_map] at this
  have hinner1 : 1 ≤ digitizeIdx x (edgesF f (decExt ns (lo + 1) n)) := by
    rw [hshape, digitize_cons]
    have hf2 : f ((100:ℚ) * 10 ^ (lo + 1)) ((s2 : ℚ) * 10 ^ (lo + 1)) ≤ x := by
      have h100 : (0:ℚ) < (100:ℚ) * 10 ^ (lo + 1) := by
        have : (0:ℚ) < 10 ^ (lo+1) := zpow_pos (by norm_num) _
        nlinarith
      have hlt : (100:ℚ) * 10 ^ (lo + 1) < (s2 : ℚ) * 10 ^ (lo + 1) := by
        have : (0:ℚ) < 10 ^ (lo+1) := zpow_pos (by norm_num) _
        have hc : (100:ℚ) < (s2:ℚ) := by exact_mod_cast hs21
        nlinarith
      have hup := (hfw _ _ h100 hlt).2
      have hs2x : (s2 : ℚ) * 10 ^ (lo + 1) ≤ x := by
        have h1 : (s2:ℚ) * 10 ^ (lo + 1) < 10 ^ ((lo + 1) + 3) := scaled_lt_pow3 hs22 _
        have h2 : (10:ℚ) ^ ((lo + 1) + 3) = 10 ^ (lo + 4) := by
          congr 1
          ring
        rw [h2] at h1
        linarith
      exact hup.trans hs2x
    rw [if_pos hf2]
    omega
  have hlen2 := hns.2.2.2
  have hle := digitizeIdx_le x f (decExt ns (lo + 1) n)
  have hlen := decExt_len_ge2 hns (lo + 1) hn
  unfold r63core
  rw [hd, hsplit]
  rw [if_neg (by omega)]
  rw [if_neg (by omega)]
  have hform : ns.length + digitizeIdx x (edgesF f (decExt ns (lo + 1) n)) =
      (ns.map (fun s : ℕ => (s : ℚ) * 10 ^ lo)).length +
        digitizeIdx x (edgesF f (decExt ns (lo + 1) n)) := by
    rw [List.length_map]
  rw [hform, getD_append_right]

theorem r63core_drop_top_many {ns : List ℕ} {f : ℚ → ℚ → ℚ} (hns : seriesOK ns)
    (hfw : edgeWeak f) {x : ℚ} (lo : ℤ) {n : ℕ} (hn : 1 ≤ n)
    (hxtop : x ≤ (10:ℚ) ^ (lo + (n:ℤ) + 1)) :
    ∀ k, r63core f ns x lo (n + k) = r63core f ns x lo n := by
  intro k
  induction k with
  | zero => rfl
  | succ k ih =>
    have hxtop' : x ≤ (10:ℚ) ^ (lo + ((n + k : ℕ) : ℤ) + 1) := by
      refine hxtop.trans (ten_zpow_le ?_)
      push_cast
      omega
    have hstep : r63core f ns x lo ((n + k) + 1) = r63core f ns x lo (n + k) :=
      r63core_drop_top hns hfw lo (by omega) hxtop'
    rw [show n + (k + 1) = (n + k) + 1 by ring, hstep, ih]

theorem r63core_drop_bot_many {ns : List ℕ} {f : ℚ → ℚ → ℚ} (hns : seriesOK ns)
    (hfw : edgeWeak f) {x : ℚ} (lo : ℤ) {n : ℕ} (hn : 1 ≤ n)
    (hx : (10:ℚ) ^ (lo + 3) ≤ x) :
    ∀ k : ℕ, r63core f ns x (lo - (k : ℤ)) (n + k) = r63core f ns x lo n := by
  intro k
  induction k with
  | zero => simp
  | succ k ih =>
    have hx' : (10:ℚ) ^ ((lo - ((k:ℤ) + 1)) + 4) ≤ x := by
      refine (ten_zpow_le ?_).trans hx
      omega
    have hstep : r63core f ns x (lo - ((k:ℤ) + 1)) ((n + k) + 1) =
        r63core f ns x ((lo - ((k:ℤ) + 1)) + 1) (n + k) :=
      r63core_drop_bot hns hfw (lo - ((k:ℤ) + 1)) (by omega) hx'
    have hbase : (lo - ((k:ℤ) + 1)) + 1 = lo - (k:ℤ) := by ring
    rw [hbase] at hstep
    have hcast : lo - ((k + 1 : ℕ) : ℤ) = lo - ((k:ℤ) + 1) := by push_cast; ring
    rw [show n + (k + 1) = (n + k) + 1 by ring, hcast, hstep, ih]

theorem round63pos_mono {ns : List ℕ} {f : ℚ → ℚ → ℚ} (hns : seriesOK ns) (hfw : edgeWeak f)
    {x1 x2 : ℚ} (h1 : 0 < x1) (h12 : x1 ≤ x2) :
    round63pos x1 ns f ≤ round63pos x2 ns f := by
  have h2 : 0 < x2 := lt_of_lt_of_le h1 h12
  have hL : Int.log 10 x1 ≤ Int.log 10 x2 := Int.log_mono_right h1 h12
  have hC : Int.clog 10 x1 ≤ Int.clog 10 x2 := Int.clog_mono_right h1 h12
  have hLC1 : Int.log 10 x1 ≤ Int.clog 10 x1 := by
    have ha : (10:ℚ) ^ Int.log 10 x1 ≤ x1 := Int.zpow_log_le_self (by norm_num) h1
    have hb : x1 ≤ (10:ℚ) ^ Int.clog 10 x1 := Int.self_le_zpow_clog (by norm_num) x1
    exact (zpow_le_zpow_iff_right₀ (by norm_num : (1:ℚ) < 10)).mp (ha.trans hb)
  have hLC2 : Int.log 10 x2 ≤ Int.clog 10 x2 := by
    have ha : (10:ℚ) ^ Int.log 10 x2 ≤ x2 := Int.zpow_log_le_self (by norm_num) h2
    have hb : x2 ≤ (10:ℚ) ^ Int.clog 10 x2 := Int.self_le_zpow_clog (by norm_num) x2
    exact (zpow_le_zpow_iff_right₀ (by norm_num : (1:ℚ) < 10)).mp (ha.trans hb)
  have hn1 : ((Int.clog 10 x1 - Int.log 10 x1 + 2).toNat : ℤ) =
      Int.clog 10 x1 - Int.log 10 x1 + 2 := Int.toNat_of_nonneg (by omega)
  have hn2 : ((Int.clog 10 x2 - Int.log 10 x2 + 2).toNat : ℤ) =
      Int.clog 10 x2 - Int.log 10 x2 + 2 := Int.toNat_of_nonneg (by omega)
  have e1 : r63core f ns x1 (Int.log 10 x1 - 3)
      ((Int.clog 10 x1 - Int.log 10 x1 + 2).toNat + (Int.clog 10 x2 - Int.clog 10 x1).toNat) =
      round63pos x1 ns f := by
    unfold round63pos
    apply r63core_drop_top_many hns hfw _ (by omega)
    have hexp : (Int.log 10 x1 - 3) + ((Int.clog 10 x1 - Int.log 10 x1 + 2).toNat : ℤ) + 1 =
        Int.clog 10 x1 := by
      rw [hn1]
      ring
    rw [hexp]
    exact Int.self_le_zpow_clog (by norm_num) x1
  have e2 : r63core f ns x2 ((Int.log 10 x2 - 3) - ((Int.log 10 x2 - Int.log 10 x1).toNat : ℤ))
      ((Int.clog 10 x2 - Int.log 10 x2 + 2).toNat + (Int.log 10 x2 - Int.log 10 x1).toNat) =
      round63pos x2 ns f := by
    unfold round63pos
    apply r63core_drop_bot_many hns hfw _ (by omega)
    have hexp : (Int.log 10 x2 - 3) + 3 = Int.log 10 x2 := by ring
    rw [hexp]
    exact Int.zpow_log_le_self (by norm_num) h2
  have hbase2 : (Int.log 10 x2 - 3) - ((Int.log 10 x2 - Int.log 10 x1).toNat : ℤ) =
      Int.log 10 x1 - 3 := by
    rw [Int.toNat_of_nonneg (by omega)]
    ring
  have hnn : (Int.clog 10 x1 - Int.log 10 x1 + 2).toNat +
        (Int.clog 10 x2 - Int.clog 10 x1).toNat =
      (Int.clog 10 x2 - Int.log 10 x2 + 2).toNat + (Int.log 10 x2 - Int.log 10 x1).toNat := by
    omega
  rw [← e1, ← e2, hbase2, ← hnn]
  exact r63core_mono_x hns f (Int.log 10 x1 - 3) (by omega) h12

theorem edgeLowStrict_weak {f : ℚ → ℚ → ℚ} (hf : edgeLowStrict f) : edgeWeak f :=
  fun a b ha hab => ⟨(hf a b ha hab).1.le, (hf a b ha hab).2⟩

theorem r63core_idem_canon {ns : List ℕ} {f : ℚ → ℚ → ℚ} (hns : seriesOK ns)
    (hfl : edgeLowStrict f) {v : ℕ} (hv : v ∈ ns) (d : ℤ) :
    r63core f ns ((v:ℚ) * 10 ^ d) (d - 1) 3 = (v:ℚ) * 10 ^ d := by
  obtain ⟨pre, post, hsplit⟩ := List.append_of_mem hv
  have hmid : ns.map (fun s : ℕ => (s : ℚ) * 10 ^ d) =
      pre.map (fun s : ℕ => (s : ℚ) * 10 ^ d) ++
        ((v:ℚ) * 10 ^ d) :: post.map (fun s : ℕ => (s : ℚ) * 10 ^ d) := by
    conv_lhs => rw [hsplit]
    rw [List.map_append, List.map_cons]
  have hshape : decExt ns (d - 1) 3 =
      (ns.map (fun s : ℕ => (s : ℚ) * 10 ^ (d - 1)) ++
        pre.map (fun s : ℕ => (s : ℚ) * 10 ^ d)) ++
      ((v:ℚ) * 10 ^ d) ::
        (post.map (fun s : ℕ => (s : ℚ) * 10 ^ d) ++
          ns.map (fun s : ℕ => (s : ℚ) * 10 ^ (d + 1))) := by
    rw [show (3:ℕ) = 2 + 1 from rfl, decExt_succ_bot, show (2:ℕ) = 1 + 1 from rfl,
      decExt_succ_bot, decExt_one]
    rw [show d - 1 + 1 = d by ring, hmid]
    simp [List.append_assoc]
  have hpw : List.Pairwise (· < ·)
      ((ns.map (fun s : ℕ => (s : ℚ) * 10 ^ (d - 1)) ++
          pre.map (fun s : ℕ => (s : ℚ) * 10 ^ d)) ++
        ((v:ℚ) * 10 ^ d) ::
          (post.map (fun s : ℕ => (s : ℚ) * 10 ^ d) ++
            ns.map (fun s : ℕ => (s : ℚ) * 10 ^ (d + 1)))) := by
    rw [← hshape]
    exact decExt_pairwise hns (d - 1) 3
  have hpos : ∀ p ∈ (ns.map (fun s : ℕ => (s : ℚ) * 10 ^ (d - 1)) ++
        pre.map (fun s : ℕ => (s : ℚ) * 10 ^ d)) ++
      ((v:ℚ) * 10 ^ d) ::
        (post.map (fun s : ℕ => (s : ℚ) * 10 ^ d) ++
          ns.map (fun s : ℕ => (s : ℚ) * 10 ^ (d + 1))), 0 < p := by
    intro p hp
    rw [← hshape] at hp
    exact decExt_pos hns (d - 1) 3 p hp
  have hcnt := digitize_at_member f hfl ((v:ℚ) * 10 ^ d) _ _ hpw hpos
  have hAlen : (ns.map (fun s : ℕ => (s : ℚ) * 10 ^ (d - 1)) ++
      pre.map (fun s : ℕ => (s : ℚ) * 10 ^ d)).length = ns.length + pre.length := by
    rw [List.length_append, List.length_map, List.length_map]
  have hns2 := hns.2.2.2
  unfold r63core
  rw [hshape, hcnt, hAlen, if_neg (by omega)]
  rw [← hAlen]
  have hget := getD_append_right
    (ns.map (fun s : ℕ => (s : ℚ) * 10 ^ (d - 1)) ++
      pre.map (fun s : ℕ => (s : ℚ) * 10 ^ d))
    (((v:ℚ) * 10 ^ d) ::
      (post.map (fun s : ℕ => (s : ℚ) * 10 ^ d) ++
        ns.map (fun s : ℕ => (s : ℚ) * 10 ^ (d + 1)))) 0
  simpa using hget

theorem round63pos_idem {ns : List ℕ} {f : ℚ → ℚ → ℚ} (hns : seriesOK ns)
    (hfl : edgeLowStrict f) {v : ℕ} (hv : v ∈ ns) (d : ℤ) :
    round63pos ((v:ℚ) * 10 ^ d) ns f = (v:ℚ) * 10 ^ d := by
  obtain ⟨hv100, hv988⟩ := hns.2.1 v hv
  have hx0 : 0 < (v:ℚ) * 10 ^ d :=
    mul_pos (by exact_mod_cast (by omega : 0 < v)) (zpow_pos (by norm_num) d)
  have hxlow : (10:ℚ) ^ (d + 2) ≤ (v:ℚ) * 10 ^ d := pow2_le_scaled hv100 d
  have hxhigh : (v:ℚ) * 10 ^ d < (10:ℚ) ^ (d + 3) := scaled_lt_pow3 hv988 d
  have hL : Int.log 10 ((v:ℚ) * 10 ^ d) = d + 2 := by
    have hge : d + 2 ≤ Int.log 10 ((v:ℚ) * 10 ^ d) :=
      (Int.zpow_le_iff_le_log (by norm_num) hx0).mp hxlow
    have hlt : Int.log 10 ((v:ℚ) * 10 ^ d) < d + 3 :=
      (Int.lt_zpow_iff_log_lt (by norm_num) hx0).mp hxhigh
    omega
  have hCle : Int.clog 10 ((v:ℚ) * 10 ^ d) ≤ d + 3 :=
    (Int.le_zpow_iff_clog_le (by norm_num) hx0).mp hxhigh.le
  have hCge : d + 2 ≤ Int.clog 10 ((v:ℚ) * 10 ^ d) := by
    have ha : (10:ℚ) ^ (d + 2) ≤ 10 ^ Int.clog 10 ((v:ℚ) * 10 ^ d) :=
      hxlow.trans (Int.self_le_zpow_clog (by norm_num) _)
    exact (zpow_le_zpow_iff_right₀ (by norm_num : (1:ℚ) < 10)).mp ha
  have hcanon := r63core_idem_canon hns hfl hv d
  unfold round63pos
  rw [hL]
  rcases (by omega : Int.clog 10 ((v:ℚ) * 10 ^ d) = d + 2 ∨
      Int.clog 10 ((v:ℚ) * 10 ^ d) = d + 3) with hC | hC
  · rw [hC, show d + 2 - (d + 2) + 2 = (2:ℤ) by ring, show ((2:ℤ)).toNat = 2 from rfl,
      show d + 2 - 3 = d - 1 by ring]
    have hxtop : (v:ℚ) * 10 ^ d ≤ (10:ℚ) ^ ((d - 1) + (2:ℤ) + 1) := by
      rw [show (d - 1) + (2:ℤ) + 1 = d + 2 by ring]
      have := Int.self_le_zpow_clog (by norm_num : 1 < 10) ((v:ℚ) * 10 ^ d)
      rwa [hC] at this
    have hdrop : r63core f ns ((v:ℚ) * 10 ^ d) (d - 1) (2 + 1) =
        r63core f ns ((v:ℚ) * 10 ^ d) (d - 1) 2 :=
      r63core_drop_top hns (edgeLowStrict_weak hfl) (d - 1) (by omega) hxtop
    rw [show (3:ℕ) = 2 + 1 from rfl] at hcanon
    rw [← hdrop, hcanon]
  · rw [hC, show d + 3 - (d + 2) + 2 = (3:ℤ) by ring, show ((3:ℤ)).toNat = 3 from rfl,
      show d + 2 - 3 = d - 1 by ring]
    exact hcanon

theorem roundHalfEven_bounds (q : ℚ) : ⌊q⌋ ≤ roundHalfEven q ∧ roundHalfEven q ≤ ⌊q⌋ + 1 := by
  unfold roundHalfEven
  split_ifs <;> omega

theorem formatAbs_eq (x : ℚ) (d0 : Char) (rest : List Char)
    (h : natDigitsMSB (sciMantExp x).1.toNat = d0 :: rest) :
    formatAbs x = d0 :: '.' :: (rest ++ 'e' :: expChars (sciMantExp x).2) := by
  unfold formatAbs
  rw [h]

theorem natDigits_1e12 : Nat.digits 10 1000000000000 = [0,0,0,0,0,0,0,0,0,0,0,0,1] := by
  norm_num [Nat.digits_def']

theorem sciMantExp_range (x : ℚ) (hx : 0 < x) :
    (10:ℤ) ^ 12 ≤ (sciMantExp x).1 ∧ (sciMantExp x).1 < (10:ℤ) ^ 13 := by
  have h1 : (10:ℚ) ^ Int.log 10 x ≤ x := Int.zpow_log_le_self (by norm_num) hx
  have h2 : x < (10:ℚ) ^ (Int.log 10 x + 1) := Int.lt_zpow_succ_log_self (by norm_num) x
  have hp : (0:ℚ) < (10:ℚ) ^ ((12:ℤ) - Int.log 10 x) := zpow_pos (by norm_num) _
  have hcast12 : (((10:ℤ) ^ 12 : ℤ) : ℚ) = (10:ℚ) ^ (12:ℤ) := by push_cast; norm_num
  have hcast13 : (((10:ℤ) ^ 13 : ℤ) : ℚ) = (10:ℚ) ^ (13:ℤ) := by push_cast; norm_num
  have hm1 : (((10:ℤ) ^ 12 : ℤ) : ℚ) ≤ x * 10 ^ ((12:ℤ) - Int.log 10 x) := by
    rw [hcast12]
    calc (10:ℚ) ^ (12:ℤ) = 10 ^ Int.log 10 x * 10 ^ ((12:ℤ) - Int.log 10 x) := by
          rw [← zpow_add₀ (by norm_num : (10:ℚ) ≠ 0)]
          ring_nf
      _ ≤ x * 10 ^ ((12:ℤ) - Int.log 10 x) := by
          exact mul_le_mul_of_nonneg_right h1 hp.le
  have hm2 : x * 10 ^ ((12:ℤ) - Int.log 10 x) < (((10:ℤ) ^ 13 : ℤ) : ℚ) := by
    rw [hcast13]
    calc x * 10 ^ ((12:ℤ) - Int.log 10 x)
        < 10 ^ (Int.log 10 x + 1) * 10 ^ ((12:ℤ) - Int.log 10 x) := by
          exact mul_lt_mul_of_pos_right h2 hp
      _ = (10:ℚ) ^ (13:ℤ) := by
          rw [← zpow_add₀ (by norm_num : (10:ℚ) ≠ 0)]
          ring_nf
  have hfl : (10:ℤ) ^ 12 ≤ ⌊x * 10 ^ ((12:ℤ) - Int.log 10 x)⌋ := Int.le_floor.mpr hm1
  have hfu : ⌊x * 10 ^ ((12:ℤ) - Int.log 10 x)⌋ < (10:ℤ) ^ 13 := Int.floor_lt.mpr hm2
  have hb := roundHalfEven_bounds (x * 10 ^ ((12:ℤ) - Int.log 10 x))
  unfold sciMantExp
  split_ifs with hcarry
  · norm_num
  · constructor
    · omega
    · rcases lt_or_eq_of_le (by omega :
        roundHalfEven (x * 10 ^ ((12:ℤ) - Int.log 10 x)) ≤ (10:ℤ) ^ 13) with h | h
      · exact h
      · exact absurd h hcarry

theorem sciMantExp_toNat_range (x : ℚ) (hx : 0 < x) :
    10 ^ 12 ≤ (sciMantExp x).1.toNat ∧ (sciMantExp x).1.toNat < 10 ^ 13 := by
  have h := sciMantExp_range x hx
  omega

theorem digitCh_isDigit {d : ℕ} (h : d < 10) : (digitCh d).isDigit = true := by
  interval_cases d <;> decide

theorem natDigitsMSB_all_digits (m : ℕ) : ∀ c ∈ natDigitsMSB m, c.isDigit = true := by
  intro c hc
  unfold natDigitsMSB at hc
  rw [List.mem_map] at hc
  obtain ⟨d, hd, rfl⟩ := hc
  rw [List.mem_reverse] at hd
  exact digitCh_isDigit (Nat.digits_lt_base (by norm_num) hd)

theorem natDigitsMSB_length13 {m : ℕ} (h1 : 10 ^ 12 ≤ m) (h2 : m < 10 ^ 13) :
    (natDigitsMSB m).length = 13 := by
  unfold natDigitsMSB
  rw [List.length_map, List.length_reverse,
    Nat.digits_len 10 m (by norm_num) (by omega),
    Nat.log_eq_of_pow_le_of_lt_pow h1 h2]

theorem expChars_shape (e : ℤ) :
    ∃ sgn es, expChars e = sgn :: es ∧ (sgn = '+' ∨ sgn = '-') ∧ 2 ≤ es.length ∧
      ∀ c ∈ es, c.isDigit = true := by
  unfold expChars
  refine ⟨if e < 0 then '-' else '+', _, rfl, ?_, ?_, ?_⟩
  · split_ifs
    · exact Or.inr rfl
    · exact Or.inl rfl
  · split_ifs with h
    · simp
    · rw [natDigitsMSB, List.length_map, List.length_reverse,
        Nat.digits_len 10 _ (by norm_num) (by omega)]
      have : 10 ≤ e.natAbs := by omega
      have := Nat.log_pos (by norm_num : 1 < 10) this
      omega
  · split_ifs with h
    · intro c hc
      rcases List.mem_cons.mp hc with rfl | hc
      · decide
      · rcases List.mem_singleton.mp hc with rfl
        exact digitCh_isDigit h
    · exact natDigitsMSB_all_digits _

theorem formatE12_shape (x : ℚ) (hx : 0 < x) :
    ∃ d0 ds sgn es,
      (formatE12 x).data = d0 :: '.' :: (ds ++ 'e' :: sgn :: es) ∧
      d0.isDigit = true ∧ ds.length = 12 ∧ (∀ c ∈ ds, c.isDigit = true) ∧
      (sgn = '+' ∨ sgn = '-') ∧ 2 ≤ es.length ∧ (∀ c ∈ es, c.isDigit = true) := by
  obtain ⟨hm1, hm2⟩ := sciMantExp_toNat_range x hx
  have hlen : (natDigitsMSB (sciMantExp x).1.toNat).length = 13 := natDigitsMSB_length13 hm1 hm2
  have hdig := natDigitsMSB_all_digits (sciMantExp x).1.toNat
  obtain ⟨sgn, es, hexp, hsgn, hlen2, hdig2⟩ := expChars_shape (sciMantExp x).2
  cases hnd : natDigitsMSB (sciMantExp x).1.toNat with
  | nil => rw [hnd] at hlen; simp at hlen
  | cons d0 rest =>
    refine ⟨d0, rest, sgn, es, ?_, ?_, ?_, ?_, hsgn, hlen2, hdig2⟩
    · rw [formatE12, if_neg (ne_of_gt hx), if_neg (not_lt.mpr hx.le)]
      show formatAbs x = _
      rw [formatAbs_eq x d0 rest hnd, hexp]
    · exact hdig d0 (by rw [hnd]; exact List.mem_cons_self d0 rest)
    · rw [hnd] at hlen
      simpa using hlen
    · intro c hc
      exact hdig c (by rw [hnd]; exact List.mem_cons_of_mem d0 hc)

theorem takeWhile_until_e (r : List Char) :
    ∀ ds : List Char, (∀ c ∈ ds, c.isDigit = true) →
      List.takeWhile (fun c => c ≠ 'e') (ds ++ 'e' :: r) = ds := by
  intro ds
  induction ds with
  | nil =>
    intro _
    simp only [List.nil_append]
    exact List.takeWhile_cons_of_neg (by simp)
  | cons c t ih =>
    intro h
    have hc : c.isDigit = true := h c (List.mem_cons_self c t)
    have hne : c ≠ 'e' := by
      intro hctr
      rw [hctr] at hc
      exact absurd hc (by decide)
    rw [List.cons_append, List.takeWhile_cons_of_pos (by simpa using hne),
      ih (fun a ha => h a (List.mem_cons_of_mem c ha))]

theorem mantissaDigitCount_formatE12 (x : ℚ) (hx : 0 < x) :
    mantissaDigitCount (formatE12 x).data = 13 := by
  obtain ⟨d0, ds, sgn, es, hdata, hd0, hdslen, hdsdig, _, _, _⟩ := formatE12_shape x hx
  rw [hdata]
  unfold mantissaDigitCount
  have hd0e : d0 ≠ 'e' := by
    intro hctr
    rw [hctr] at hd0
    exact absurd hd0 (by decide)
  have htw : List.takeWhile (fun c => c ≠ 'e') (d0 :: '.' :: (ds ++ 'e' :: sgn :: es)) =
      d0 :: '.' :: ds := by
    rw [List.takeWhile_cons_of_pos (by simpa using hd0e),
      List.takeWhile_cons_of_pos (by simp), takeWhile_until_e (sgn :: es) ds hdsdig]
  rw [htw]
  have hfil : List.filter Char.isDigit (d0 :: '.' :: ds) = d0 :: ds := by
    rw [List.filter_cons_of_pos hd0, List.filter_cons_of_neg (by simp),
      List.filter_eq_self.mpr hdsdig]
  rw [hfil]
  simp [hdslen]

theorem findHashChange_spec (env : SimEnv) :
    ∀ fuel t u, findHashChange env fuel t = some u → t < u ∧ env.hashAt u ≠ env.hashAt 0 := by
  intro fuel
  induction fuel with
  | zero => intro t u h; simp [findHashChange] at h
  | succ f ih =>
    intro t u h
    rw [findHashChange] at h
    by_cases hc : env.hashAt (t + 1) = env.hashAt 0
    · rw [if_pos hc] at h
      have := ih (t + 1) u h
      exact ⟨by omega, this.2⟩
    · rw [if_neg hc] at h
      cases h
      exact ⟨by omega, hc⟩

theorem length_resolveMatches_of_unique (netlist : List (List String)) :
    ∀ names : List String, (∀ nm ∈ names, (matchesFor netlist nm).length = 1) →
      (resolveMatches netlist names).length = names.length := by
  intro names
  induction names with
  | nil => intro _; rfl
  | cons nm rest ih =>
    intro h
    have h1 := h nm (List.mem_cons_self nm rest)
    have h2 := ih (fun x hx => h x (List.mem_cons_of_mem nm hx))
    simp [resolveMatches, List.flatMap_cons] at h2 ⊢
    omega

/-! ## Claims C2, C3, C4, C5, C8 -/

/-- C2 (counterexample): with a nonzero subprocess status the
synchronizer does **not** abort before the poll loop blocks — in
`envChangeAt2` it completes two blocking poll iterations before the
fatal exit, and in `envStuck` (hash never changes) it hangs and the
abort is never reached at all. -/
theorem c2_counterexample :
    runSimModel envChangeAt2 10 = SimOutcome.fatalExit 2 ∧
    SimOutcome.fatalExit 2 ≠ SimOutcome.fatalExit 0 ∧
    runSimModel envStuck 10 = SimOutcome.hung := by
  decide

/-- C2 (amended): on a nonzero simulator exit status the run does abort
fatally (not retried), but only **after** the hash-change poll loop
(protocol step 4) has terminated: the status check follows the loop, so
at least one blocking poll iteration always precedes the abort, and if
the artifact hash never changes the caller blocks forever and the abort
is never reached. -/
theorem c2_status_abort_after_poll :
    (∀ (env : SimEnv) (fuel t : ℕ), env.status ≠ 0 →
        findHashChange env fuel 0 = some t →
        runSimModel env fuel = SimOutcome.fatalExit t ∧ 1 ≤ t) ∧
    (∀ (env : SimEnv) (fuel : ℕ), (∀ t, env.hashAt t = env.hashAt 0) →
        runSimModel env fuel = SimOutcome.hung) := by
  constructor
  · intro env fuel t hstatus hfind
    refine ⟨?_, ?_⟩
    · unfold runSimModel
      rw [hfind]
      simp [hstatus]
    · exact (findHashChange_spec env fuel 0 t hfind).1
  · intro env fuel hconst
    have hnone : ∀ f t, findHashChange env f t = none := by
      intro f
      induction f with
      | zero => intro t; rfl
      | succ f ih =>
        intro t
        rw [findHashChange, if_pos (hconst (t + 1))]
        exact ih (t + 1)
    unfold runSimModel
    rw [hnone]

/-- C2 witness: the amended theorem applied to `envChangeAt2`. -/
theorem c2_status_abort_after_poll_witness :
    runSimModel envChangeAt2 10 = SimOutcome.fatalExit 2 ∧ 1 ≤ 2 :=
  c2_status_abort_after_poll.1 envChangeAt2 10 2 (by decide) (by decide)

/-- C3 (counterexample): requesting instances `["R12", "Q9"]` against
`nlDup`, the name "R12" matches **two** netlist lines and "Q9" matches
**none**, yet the total match count equals the request count, so the
startup check passes and the run proceeds instead of aborting. -/
theorem c3_counterexample :
    resolveBindings nlDup ["R12", "Q9"] = ResolveOutcome.ok [0, 1] ∧
    matchesFor nlDup ("R12") = [0, 1] ∧
    matchesFor nlDup ("Q9") = [] := by
  decide

/-- C3 (amended): the startup check only compares the **total** number
of (instance, line) matches with the number of requested instances: the
run proceeds iff the totals agree (it crashes with `IndexError` when
the total exceeds the request count before the check is reached).
Every binding resolving to exactly one line is sufficient for this, but
not necessary. -/
theorem c3_total_count_check (netlist : List (List String)) (names : List String) :
    (resolveBindings netlist names = ResolveOutcome.ok (resolveMatches netlist names) ↔
      (resolveMatches netlist names).length = names.length) ∧
    ((∀ nm ∈ names, (matchesFor netlist nm).length = 1) →
      resolveBindings netlist names = ResolveOutcome.ok (resolveMatches netlist names)) := by
  have hiff : resolveBindings netlist names = ResolveOutcome.ok (resolveMatches netlist names) ↔
      (resolveMatches netlist names).length = names.length := by
    constructor
    · intro h
      unfold resolveBindings at h
      split_ifs at h with h1 h2
      · omega
    · intro h
      unfold resolveBindings
      rw [if_neg (by omega), if_neg (by omega)]
  exact ⟨hiff, fun h => hiff.mpr (length_resolveMatches_of_unique netlist names h)⟩

/-- C3 witness: the amended theorem applied to `nlDup` with the single
uniquely-resolving name "C5". -/
theorem c3_total_count_check_witness :
    resolveBindings nlDup ["C5"] = ResolveOutcome.ok [2] := by
  have h := (c3_total_count_check nlDup ["C5"]).2 (by decide)
  have he : resolveMatches nlDup ["C5"] = [2] := by decide
  rwa [he] at h

/-- C4 (confirmed): the objective function's simulated vector is the
magnitude trace in match mode 1, the unwrapped-phase trace in mode 2,
and their concatenation (magnitude segment then phase segment, each of
frequency-point length `n`) in mode 3; whenever the target and weight
lengths agree with it, the returned residual is exactly
`(target - simulated) * errWeights` elementwise. -/
theorem c4_residual_formula (matchMode n : ℕ) (fresp phase target w sim : List ℚ)
    (hf : fresp.length = n) (hp : phase.length = n)
    (hsim : optCurrentOf matchMode fresp phase = some sim) :
    (matchMode = 1 → sim = fresp) ∧
    (matchMode = 2 → sim = phase) ∧
    (matchMode = 3 → sim = fresp ++ phase ∧ sim.take n = fresp ∧
      sim.drop n = phase ∧ sim.length = 2 * n) ∧
    (target.length = sim.length → w.length = sim.length →
      optLTspiceResidual matchMode fresp phase target w =
        EvalResult.residual (List.zipWith (fun a b => a * b)
          (List.zipWith (fun a b => a - b) target sim) w)) := by
  refine ⟨?_, ?_, ?_, ?_⟩
  · intro h1; subst h1
    simpa [optCurrentOf] using hsim.symm
  · intro h2; subst h2
    simpa [optCurrentOf] using hsim.symm
  · intro h3; subst h3
    have hs : sim = fresp ++ phase := by simpa [optCurrentOf] using hsim.symm
    subst hs
    refine ⟨rfl, ?_, ?_, by simp [hf, hp]; omega⟩
    · rw [← hf, List.take_left]
    · rw [← hf, List.drop_left]
  · intro ht hw
    have hne' : ¬ target.length ≠ sim.length := not_not_intro ht
    have hl : (List.zipWith (fun a b => a - b) target sim).length = w.length := by
      rw [List.length_zipWith]; omega
    simp only [optLTspiceResidual, hsim, npElemwise, if_neg hne', if_pos ht, if_pos hl]

/-- C4 witness: the formula applied at match mode 3 on concrete traces. -/
theorem c4_residual_formula_witness :
    optLTspiceResidual 3 [1, 2] [3, 4] [1, 1, 1, 1] [2, 2, 2, 2] =
      EvalResult.residual (List.zipWith (fun a b => a * b)
        (List.zipWith (fun a b => a - b) [1, 1, 1, 1] ([1, 2] ++ [3, 4])) [2, 2, 2, 2]) :=
  (c4_residual_formula 3 2 [1, 2] [3, 4] [1, 1, 1, 1] [2, 2, 2, 2] ([1, 2] ++ [3, 4])
    (by simp) (by simp) (by simp [optCurrentOf])).2.2.2 (by simp) (by simp)

/-- C5 (confirmed): whenever the target length differs from the
simulated response length, the evaluation ends in the fatal
`sys.exit` and no residual vector — truncated or otherwise — is ever
returned. -/
theorem c5_length_mismatch_fatal (matchMode : ℕ) (fresp phase target w sim : List ℚ)
    (hsim : optCurrentOf matchMode fresp phase = some sim)
    (hne : target.length ≠ sim.length) :
    optLTspiceResidual matchMode fresp phase target w = EvalResult.fatal ∧
    ∀ err, optLTspiceResidual matchMode fresp phase target w ≠ EvalResult.residual err := by
  have h : optLTspiceResidual matchMode fresp phase target w = EvalResult.fatal := by
    simp only [optLTspiceResidual, hsim, if_pos hne]
  exact ⟨h, fun err hcontra => by rw [h] at hcontra; exact EvalResult.noConfusion hcontra⟩

/-- C5 witness: target length 50 against a magnitude trace of length
49 (match mode 1) hits the fatal length-mismatch exit. -/
theorem c5_length_mismatch_fatal_witness :
    optLTspiceResidual 1 (List.replicate 49 (0:ℚ)) [] (List.replicate 50 (0:ℚ)) [] =
      EvalResult.fatal :=
  (c5_length_mismatch_fatal 1 (List.replicate 49 (0:ℚ)) [] (List.replicate 50 (0:ℚ)) []
    (List.replicate 49 (0:ℚ)) (by simp [optCurrentOf]) (by simp)).1

/-- C8 (confirmed): mutating the value token (index 3) of line `i`
leaves every other line and every other token of line `i` unchanged,
preserves the line count, and changes exactly the `i`-th record of the
space-joined, newline-terminated serialization. -/
theorem c8_mutation_isolation (nl : List (List String)) (i : ℕ) (tok : String)
    (hi : i < nl.length) :
    (set_value nl i tok).length = nl.length ∧
    (∀ j, j < nl.length → j ≠ i → (set_value nl i tok).getD j [] = nl.getD j []) ∧
    (∀ m, m ≠ 3 → ((set_value nl i tok).getD i []).getD m ("") = (nl.getD i []).getD m ("")) ∧
    (3 < (nl.getD i []).length → ((set_value nl i tok).getD i []).getD 3 ("") = tok) ∧
    (set_value nl i tok).map serLine =
      (nl.map serLine).set i (serLine ((nl.getD i []).set 3 tok)) := by
  have hij : (set_value nl i tok).getD i [] = (nl.getD i []).set 3 tok := by
    simp only [set_value, List.getD_eq_getElem?_getD,
      List.getElem?_set_eq_of_lt _ (by simpa using hi), Option.getD_some]
  refine ⟨List.length_set .., ?_, ?_, ?_, ?_⟩
  · intro j hj hne
    simp only [set_value, List.getD_eq_getElem?_getD,
      List.getElem?_set_ne (fun h => hne h.symm)]
  · intro m hm
    rw [hij]
    simp only [List.getD_eq_getElem?_getD, List.getElem?_set_ne (fun h => hm h.symm)]
  · intro h3
    rw [hij]
    have h3' : 3 < ((nl.getD i []).set 3 tok).length := by simpa using h3
    simp only [List.getD_eq_getElem?_getD, List.getElem?_set_eq_of_lt _ (by simpa using h3),
      Option.getD_some]
  · unfold set_value
    rw [List.map_set]

/-- C6 (confirmed): the value-token parsing rules apply in order —
micro sign first (`"4.7µ"` ↦ 4.7e-6), plain numerals directly
(`"1000"` ↦ 1000, and a suffix-free decimal like `"4.7"` falls through
the substitutions unchanged), multi-character unit+magnitude
combinations (`"2.2pF"`, `"2.2pH"` ↦ 2.2e-12) before the bare
single-letter fallback, with the case-sensitive magnitudes
`'M'` ↦ 1e6, `'G'` ↦ 1e9, `'m'` ↦ 1e-3, `'k'` ↦ 1e3; in particular
`"4.7k"` ↦ 4700, `"100n"` ↦ 1e-7, `"1u"` ↦ 1e-6. -/
theorem c6_value_token_parsing :
    parseValueToken ("4.7k") = some 4700 ∧
    parseValueToken ("100n") = some (1 / 10 ^ 7) ∧
    parseValueToken ("2.2pF") = some (11 / 5 / 10 ^ 12) ∧
    parseValueToken ("2.2pH") = some (11 / 5 / 10 ^ 12) ∧
    parseValueToken ("1u") = some (1 / 10 ^ 6) ∧
    parseValueToken ("1M") = some 1000000 ∧
    parseValueToken ("1G") = some 1000000000 ∧
    parseValueToken ("1m") = some (1 / 10 ^ 3) ∧
    parseValueToken ("4.7") = some (47 / 10) ∧
    parseValueToken ("1000") = some 1000 ∧
    parseValueToken (String.mk ['4', '.', '7', Char.ofNat 181]) = some (47 / 10 ^ 7) := by
  refine ⟨?_, ?_, ?_, ?_, ?_, ?_, ?_, ?_, ?_, ?_, ?_⟩ <;>
  · simp +decide [parseValueToken, pyReplace, pyReplaceF, asciiLower, pyIsNumeric, pyFloat,
      splitSign, splitAtExpCh, parseUnsignedDec, parseExpInt, digitsVal]
    try norm_num

/-- C10 (confirmed): the magnitude-suffix substitution rewrites every
occurrence of the suffix letter anywhere in the token, not just a
trailing one: `"2n2"` becomes `"2e-92"` and parses, without error, to
2e-92 (not 2.2e-9). -/
theorem c10_mid_token_suffix :
    parseValueToken ("2n2") = some (2 / 10 ^ 92) ∧
    pyReplace ("1n1n".data) ['n'] ("e-9".data) = ("1e-91e-9".data) := by
  refine ⟨?_, by decide⟩
  simp +decide [parseValueToken, pyReplace, pyReplaceF, asciiLower, pyIsNumeric, pyFloat,
    splitSign, splitAtExpCh, parseUnsignedDec, parseExpInt, digitsVal]
  norm_num

/-- C1 (counterexample): under the `up` bin-edge policy the quantizer
is **not** idempotent: 100 is an `E3` series value, and its own
extended table is `[10, 22, 47, 100, 220, 470]` with `up` edges
`[10, 22, 47, 100, 220]`, so `np.digitize` lands 100 in the bin of
220 (`bins[i-1] ≤ x < bins[i]` sends an on-edge value up). -/
theorem c1_counterexample :
    round63 100 ("E3") (some ("up")) = R63Result.val 220 ∧ (220:ℚ) ≠ 100 := by
  have hL : Int.log 10 (100:ℚ) = 2 := by
    have h3 : Nat.log 10 100 = 2 := Nat.log_eq_of_pow_le_of_lt_pow (by norm_num) (by norm_num)
    rw [Int.log_ofNat, h3]
    norm_num
  have hC : Int.clog 10 (100:ℚ) = 2 := by
    have h3 : Nat.clog 10 100 = 2 := by
      rw [Nat.clog_of_two_le (by norm_num) (by norm_num)]
      norm_num
      rw [Nat.clog_of_two_le (by norm_num) (by norm_num)]
      norm_num
    rw [Int.clog_ofNat, h3]
    norm_num
  have hpos : round63pos 100 seriesE3 (fun a _ => a) = 220 := by
    have hn : (Int.clog 10 (100:ℚ) - Int.log 10 (100:ℚ) + 2).toNat = 2 := by
      rw [hL, hC]; rfl
    have hlo : Int.log 10 (100:ℚ) - 3 = -1 := by rw [hL]; norm_num
    unfold round63pos
    rw [hlo, hn]
    norm_num [r63core, decExt, edgesF, digitizeIdx, seriesE3, List.range_succ,
      List.countP_cons, List.forall_mem_cons]
  refine ⟨?_, by norm_num⟩
  have hser : eSeriesTable ("E3") = some seriesE3 := rfl
  have hrnd : edgeFn (pyLower ("up")) = some (fun a _ => a) := rfl
  simp only [round63, hser, Option.getD_some, hrnd, if_neg (by norm_num : ¬ (100:ℚ) ≤ 0)]
  rw [hpos]

/-- C1 (amended): for every supported series, every series value
`v · 10^d` of the extended table, and every bin-edge policy **except
`up`** — i.e. arithmetic, harmonic, and down — `round63` returns the
value unchanged; the `up` policy instead maps an on-series value to the
next series value (see the counterexample). -/
theorem c1_round63_idempotent (ser rnd : String) (ns : List ℕ) (v : ℕ) (d : ℤ)
    (f : ℚ → ℚ → ℚ) (hser : eSeriesTable ser = some ns) (hv : v ∈ ns)
    (hrnd : edgeFn (pyLower rnd) = some f) (hnotup : pyLower rnd ≠ "up") :
    round63 ((v:ℚ) * 10 ^ d) ser (some rnd) = R63Result.val ((v:ℚ) * 10 ^ d) := by
  have hns := eSeriesTable_ok hser
  have hfl := edgeFn_lowStrict hrnd hnotup
  have hv100 := (hns.2.1 v hv).1
  have hx0 : 0 < (v:ℚ) * 10 ^ d :=
    mul_pos (by exact_mod_cast (by omega : 0 < v)) (zpow_pos (by norm_num) d)
  simp only [round63, hser, Option.getD_some, hrnd, if_neg (not_le.mpr hx0)]
  rw [round63pos_idem hns hfl hv d]

/-- C1 witness: the idempotence theorem at the `E24` value 3.3
(`330 · 10⁻²`) under the harmonic policy. -/
theorem c1_round63_idempotent_witness :
    round63 ((330:ℚ) * 10 ^ (-2 : ℤ)) ("E24") (some ("harmonic")) =
      R63Result.val ((330:ℚ) * 10 ^ (-2 : ℤ)) :=
  c1_round63_idempotent "E24" "harmonic" seriesE24 330 (-2)
    (fun a b => 2 * a * b / (a + b)) rfl (by decide) rfl (by decide)

/-- C9 (confirmed): for every supported series and every bin-edge
policy, `round63` is monotone on positive inputs: `x1 ≤ x2` implies
`round63 x1 ≤ round63 x2`, even when the two calls expand the series
table over different decade ranges. -/
theorem c9_round63_monotone (ser rnd : String) (x1 x2 : ℚ) (ns : List ℕ) (f : ℚ → ℚ → ℚ)
    (hser : eSeriesTable ser = some ns) (hrnd : edgeFn (pyLower rnd) = some f)
    (h1 : 0 < x1) (h12 : x1 ≤ x2) :
    ∃ y1 y2, round63 x1 ser (some rnd) = R63Result.val y1 ∧
      round63 x2 ser (some rnd) = R63Result.val y2 ∧ y1 ≤ y2 := by
  have hns := eSeriesTable_ok hser
  have hfw := edgeFn_weak hrnd
  have h2 : 0 < x2 := lt_of_lt_of_le h1 h12
  refine ⟨round63pos x1 ns f, round63pos x2 ns f, ?_, ?_,
    round63pos_mono hns hfw h1 h12⟩
  · simp only [round63, hser, Option.getD_some, hrnd, if_neg (not_le.mpr h1)]
  · simp only [round63, hser, Option.getD_some, hrnd, if_neg (not_le.mpr h2)]

/-- C9 witness: monotonicity across a decade boundary, `E12` series,
arithmetic policy, at 2 ≤ 30. -/
theorem c9_round63_monotone_witness :
    ∃ y1 y2, round63 2 ("E12") (some ("arithmetic")) = R63Result.val y1 ∧
      round63 30 ("E12") (some ("arithmetic")) = R63Result.val y2 ∧ y1 ≤ y2 :=
  c9_round63_monotone "E12" "arithmetic" 2 30 seriesE12
    (fun a b => (a + b) / 2) rfl rfl (by norm_num) (by norm_num)

/-- C7 (counterexample): writing back the value 1000.0 produces the
token `1.000000000000e+03`, which has 13 significant (mantissa) digits,
not 12: `%.12e` fixes 12 *fractional* digits plus one integer digit. -/
theorem c7_counterexample :
    formatE12 1000 = ("1.000000000000e+03") ∧
    mantissaDigitCount (("1.000000000000e+03").data) = 13 ∧
    mantissaDigitCount (formatE12 1000).data ≠ 12 := by
  have h3 : Nat.log 10 1000 = 3 := Nat.log_eq_of_pow_le_of_lt_pow (by norm_num) (by norm_num)
  have he : Int.log 10 (1000:ℚ) = (3:ℤ) := by
    rw [Int.log_ofNat, h3]
    norm_num
  have hr : roundHalfEven ((1000:ℚ) * 10 ^ ((12:ℤ) - Int.log 10 (1000:ℚ))) = 10 ^ 12 := by
    rw [he]
    have harg : (1000:ℚ) * 10 ^ ((12:ℤ) - 3) = ((10 ^ 12 : ℤ) : ℚ) := by norm_num
    rw [harg]
    unfold roundHalfEven
    rw [Int.fract_intCast, Int.floor_intCast]
    norm_num
  have hme : sciMantExp 1000 = ((10:ℤ) ^ 12, 3) := by
    unfold sciMantExp
    rw [hr, if_neg (by norm_num), he]
  have hmant : natDigitsMSB ((sciMantExp 1000).1.toNat) =
      ['1', '0', '0', '0', '0', '0', '0', '0', '0', '0', '0', '0', '0'] := by
    rw [hme]
    have h10 : ((10:ℤ) ^ 12) = 1000000000000 := by norm_num
    rw [h10, show (1000000000000:ℤ).toNat = 1000000000000 from rfl]
    unfold natDigitsMSB
    rw [natDigits_1e12]
    norm_num [digitCh]
  have hfmt : formatE12 1000 = ("1.000000000000e+03") := by
    rw [formatE12, if_neg (by norm_num), if_neg (by norm_num)]
    rw [formatAbs_eq 1000 '1' ['0', '0', '0', '0', '0', '0', '0', '0', '0', '0', '0', '0'] hmant,
      hme]
    norm_num [expChars, digitCh]
  refine ⟨hfmt, by decide, ?_⟩
  rw [hfmt]
  decide

/-- C7 (amended): every value token written back into the netlist by
the objective function (the `%.12e` rendering of the positive value
`nominal · exp(param)`) is fixed-precision exponential notation with
one integer mantissa digit, exactly 12 fractional mantissa digits — 13
significant digits in all, not 12 — a signed zero-padded exponent of at
least two digits, and no unit or magnitude suffix characters. -/
theorem c7_token_format (x : ℚ) (hx : 0 < x) :
    mantissaDigitCount (formatE12 x).data = 13 ∧
    (∀ c ∈ (formatE12 x).data, isPlainSciChar c = true) ∧
    ∃ d0 ds sgn es,
      (formatE12 x).data = d0 :: '.' :: (ds ++ 'e' :: sgn :: es) ∧
      d0.isDigit = true ∧ ds.length = 12 ∧ (∀ c ∈ ds, c.isDigit = true) ∧
      (sgn = '+' ∨ sgn = '-') ∧ 2 ≤ es.length ∧ (∀ c ∈ es, c.isDigit = true) := by
  refine ⟨mantissaDigitCount_formatE12 x hx, ?_, formatE12_shape x hx⟩
  obtain ⟨d0, ds, sgn, es, hdata, hd0, hdslen, hdsdig, hsgn, hlen2, hdig2⟩ := formatE12_shape x hx
  rw [hdata]
  intro c hc
  unfold isPlainSciChar
  rcases List.mem_cons.mp hc with rfl | hc
  · rw [hd0]; rfl
  rcases List.mem_cons.mp hc with rfl | hc
  · decide
  rcases List.mem_append.mp hc with hc | hc
  · rw [hdsdig c hc]; rfl
  rcases List.mem_cons.mp hc with rfl | hc
  · decide
  rcases List.mem_cons.mp hc with rfl | hc
  · rcases hsgn with rfl | rfl <;> decide
  · rw [hdig2 c hc]; rfl

/-- C7 witness: the amended format theorem applied at 1000. -/
theorem c7_token_format_witness :
    mantissaDigitCount (formatE12 1000).data = 13 :=
  (c7_token_format 1000 (by norm_num)).1

/-- C8 witness: mutating line 0 of `nlDup` leaves line 1 untouched. -/
theorem c8_mutation_isolation_witness :
    (set_value nlDup 0 ("9.990000000000e+02")).getD 1 [] = nlDup.getD 1 [] :=
  (c8_mutation_isolation nlDup 0 ("9.990000000000e+02") (by decide)).2.1 1 (by decide) (by decide)

end LTspiceOpt
